import Mathlib

/-!
# Notes API (`main.js`): a verification development

`main.js` is an Express service that stores each note as the file
`path.join(cache, noteName + ".txt")` and answers five routes.  This file
embeds the route handlers, `noteExists` and `ensureCacheDirectory`, and
proves the properties of the service's specification.

The handlers are written once, over an arbitrary implementation of the six
`fs.promises` functions they call (`FsPromises`), and are then run on a
concrete model of a POSIX file-system namespace (`nodeFs`): files and
directories addressed by paths that are resolved component by component
against the process's working directory, with the limit `NAME_MAX` on the
length of a component.  Permission bits, links, the limit on the length of a
whole path and resource exhaustion are not represented in that model; a
second implementation (`guardedFs`) adds directories without search
permission, and the theorems that hold for every behaviour of the primitives
are stated over `FsPromises` itself.  The two static routes are outside the
embedding; of the top level of `main.js` the declarations are embedded
(`mainJs`), as far as loading the module depends on them.
-/

set_option autoImplicit false

namespace NotesApi

/-! ## Text helpers -/

/-- Pieces of a character list between the occurrences of `/`. -/
def splitSlash : List Char → List (List Char)
  | [] => [[]]
  | c :: cs =>
    if c = '/' then [] :: splitSlash cs
    else
      match splitSlash cs with
      | [] => [[c]]
      | s :: ss => (c :: s) :: ss

/-- The non-empty components of a path string, in order. -/
def segments (p : String) : List String :=
  ((splitSlash p.toList).map String.mk).filter (fun s => decide (s ≠ ""))

/-- Components joined with `/` between them. -/
def joinSlash : List String → String
  | [] => ""
  | [s] => s
  | s :: t :: rest => s ++ "/" ++ joinSlash (t :: rest)

/-- JavaScript `s.endsWith(suffix)`. -/
def endsWith (s suffix : String) : Bool :=
  suffix.toList.isSuffixOf s.toList

/-- The string without its last `n` characters. -/
def dropRight (s : String) (n : Nat) : String :=
  String.mk (s.toList.take (s.toList.length - n))

/-- Whether a path string starts with `/`. -/
def isAbsolute (p : String) : Bool :=
  decide (p.toList.head? = some '/')

/-- The components that path resolution follows: the non-empty components of
the string and, for a string that ends in a separator, a final `.`, so that
what the path names has to be a directory. -/
def components (p : String) : List String :=
  segments p ++ (if p.toList.getLast? = some '/' then ["."] else [])

/-! ## Node's `path` module (POSIX flavour) -/

namespace path

/-- One segment of `normalizeString`: empty and `.` segments are skipped, `..`
removes the previous segment unless there is none or it is itself `..` (then it
is kept when the path is relative and dropped when it is absolute), any other
segment is appended. -/
def normStep (allowAboveRoot : Bool) (res : List String) (seg : String) : List String :=
  if seg = "" ∨ seg = "." then res
  else if seg = ".." then
    match res.getLast? with
    | none => if allowAboveRoot then [".."] else []
    | some l =>
      if l = ".." then (if allowAboveRoot then res ++ [".."] else res)
      else res.dropLast
  else res ++ [seg]

/-- What `normalizeString` has kept so far: no empty and no `.` component, and
no `..` when the path is absolute. -/
def Kept (allowAboveRoot : Bool) (res : List String) : Prop :=
  (∀ x ∈ res, x ≠ "" ∧ x ≠ ".") ∧ (allowAboveRoot = false → ".." ∉ res)

/-- Node's `normalizeString(path, allowAboveRoot, "/")`. -/
def normalizeString (p : String) (allowAboveRoot : Bool) : String :=
  joinSlash ((segments p).foldl (normStep allowAboveRoot) [])

/-- Node's `path.posix.normalize`. -/
def normalize (p : String) : String :=
  if p = "" then "."
  else
    let absolute := isAbsolute p
    let trailingSeparator := decide (p.toList.getLast? = some '/')
    let res := normalizeString p (!absolute)
    if res = "" then
      if absolute then "/" else if trailingSeparator then "./" else "."
    else
      let res := if trailingSeparator then res ++ "/" else res
      if absolute then "/" ++ res else res

/-- Node's `path.posix.join` at two arguments: the non-empty arguments are
joined with `/` and the result is normalized. -/
def join (a b : String) : String :=
  match [a, b].filter (fun s => decide (s ≠ "")) with
  | [] => "."
  | parts => normalize (joinSlash parts)

/-- The last component of a path, trailing separators ignored. -/
def lastComponent (p : String) : String :=
  String.mk (((p.toList.reverse.dropWhile (fun c => decide (c = '/'))).takeWhile
    (fun c => decide (c ≠ '/'))).reverse)

/-- Node's `path.posix.basename(path, suffix)`: the last component, without
`suffix` when the component ends in it and is longer than it; the empty
string when the whole path equals the suffix. -/
def basename (p suffix : String) : String :=
  if suffix ≠ "" ∧ suffix.length ≤ p.length then
    if suffix = p then ""
    else
      let base := lastComponent p
      if endsWith base suffix ∧ base ≠ suffix then dropRight base suffix.length
      else base
  else lastComponent p

end path

/-! ## A POSIX file-system namespace -/

/-- Error codes of the failing `fs` calls. -/
inductive Errno
  | ENOENT
  | ENOTDIR
  | EISDIR
  | EEXIST
  | ENAMETOOLONG
  | EACCES
  | ERR_INVALID_ARG_VALUE
  deriving DecidableEq, Repr

/-- What a location holds: a regular file with its text, or a directory. -/
inductive Node
  | file (content : String)
  | dir
  deriving DecidableEq, Repr

/-- An absolute location: the component names from the root. -/
abbrev Path := List String

/-- The file system: every location that holds something, with what it holds,
in the order in which directories enumerate their entries.  The root is
always a directory. -/
structure FS where
  entries : List (Path × Node)
  deriving DecidableEq, Repr

/-- First value stored under a key. -/
def assoc : List (Path × Node) → Path → Option Node
  | [], _ => none
  | (k, v) :: rest, p => if k = p then some v else assoc rest p

/-- What a location holds, if anything. -/
def FS.node (fs : FS) (p : Path) : Option Node :=
  if p = [] then some Node.dir else assoc fs.entries p

/-- Every entry stored under a key gets a new value. -/
def replaceAt (p : Path) (n : Node) : List (Path × Node) → List (Path × Node)
  | [] => []
  | (k, v) :: rest => (if k = p then (k, n) else (k, v)) :: replaceAt p n rest

/-- Every entry stored under a key is dropped. -/
def removeAt (p : Path) : List (Path × Node) → List (Path × Node)
  | [] => []
  | (k, v) :: rest => if k = p then removeAt p rest else (k, v) :: removeAt p rest

/-- Store a node at a location: every entry already there is replaced, and
when there is none a new entry is added at the end. -/
def FS.put (fs : FS) (p : Path) (n : Node) : FS :=
  match assoc fs.entries p with
  | some _ => ⟨replaceAt p n fs.entries⟩
  | none => ⟨fs.entries ++ [(p, n)]⟩

/-- Remove whatever a location holds. -/
def FS.remove (fs : FS) (p : Path) : FS :=
  ⟨removeAt p fs.entries⟩

/-- Largest number of bytes of one path component (`NAME_MAX` of `<limits.h>`). -/
def NAME_MAX : Nat := 255

/-- Number of bytes of a whole path, with its terminator, that the kernel
accepts (`PATH_MAX` of `<limits.h>`). -/
def PATH_MAX : Nat := 4096

/-- Names of the entries of the directory at a location, in enumeration order.
A directory has no entry whose name is longer than `NAME_MAX`. -/
def FS.names (fs : FS) (d : Path) : List String :=
  fs.entries.filterMap (fun e =>
    match e.1.getLast? with
    | some name =>
      if e.1.dropLast = d ∧ name.utf8ByteSize ≤ NAME_MAX then some name else none
    | none => none)

/-- Where one component leads from a location: `.` stays, `..` goes to the
parent, a name goes to the entry of that name. -/
def stepTo (cur : Path) (seg : String) : Path :=
  if seg = "." then cur else if seg = ".." then cur.dropLast else cur ++ [seg]

/-- The locations that following the components from a location passes
through, the first and the last included. -/
def trail : Path → List String → List Path
  | cur, [] => [cur]
  | cur, seg :: rest => cur :: trail (stepTo cur seg) rest

/-- Path resolution: follow the components from a location.  A component is
looked up only in a location that holds a directory, and a component longer
than `NAME_MAX` names nothing; `.` stays, `..` goes to the parent.  The result
is the location reached, which may hold nothing. -/
def walk (fs : FS) : Path → List String → Except Errno Path
  | cur, [] => Except.ok cur
  | cur, seg :: rest =>
    match fs.node cur with
    | none => Except.error Errno.ENOENT
    | some (Node.file _) => Except.error Errno.ENOTDIR
    | some Node.dir =>
      if NAME_MAX < seg.utf8ByteSize then Except.error Errno.ENAMETOOLONG
      else walk fs (stepTo cur seg) rest

/-- The location a path string names for a process with working directory
`cwd`.  Node rejects a path that contains a null character. -/
def locate (fs : FS) (cwd : Path) (p : String) : Except Errno Path :=
  if (Char.ofNat 0) ∈ p.toList then Except.error Errno.ERR_INVALID_ARG_VALUE
  else if p = "" then Except.error Errno.ENOENT
  else walk fs (if isAbsolute p then [] else cwd) (components p)

/-- What a path string names, when it names something: the regular file or
directory found at the end of path resolution. -/
def fileAt (fs : FS) (cwd : Path) (p : String) : Option Node :=
  match locate fs cwd p with
  | Except.ok loc => fs.node loc
  | Except.error _ => none

/-- The text of the regular file at a location; empty when the location holds
no regular file. -/
def FS.content (fs : FS) (loc : Path) : String :=
  match fs.node loc with
  | some (Node.file c) => c
  | _ => ""

/-- Whether a new entry can be created at a location: nothing is there and the
parent holds a directory. -/
def FS.vacant (fs : FS) (loc : Path) : Bool :=
  decide (fs.node loc = none ∧ fs.node loc.dropLast = some Node.dir)

/-- Whether a path string names a place where a file can be created: path
resolution reaches a location that holds nothing, inside an existing directory. -/
def canCreate (fs : FS) (cwd : Path) (p : String) : Bool :=
  match locate fs cwd p with
  | Except.ok loc => fs.vacant loc
  | Except.error _ => false

/-- Whether every location that holds something lies in a directory. -/
def FS.closed (fs : FS) : Bool :=
  fs.entries.all (fun e => decide (fs.node e.1.dropLast = some Node.dir))

/-- Model of `fs.access(path)` (mode `F_OK`). -/
def posixAccess (cwd : Path) (p : String) (fs : FS) : Except Errno Unit × FS :=
  match locate fs cwd p with
  | Except.error e => (Except.error e, fs)
  | Except.ok loc =>
    match fs.node loc with
    | none => (Except.error Errno.ENOENT, fs)
    | some _ => (Except.ok (), fs)

/-- Model of `fs.readFile(path, "utf-8")`. -/
def posixReadFile (cwd : Path) (p : String) (fs : FS) : Except Errno String × FS :=
  match locate fs cwd p with
  | Except.error e => (Except.error e, fs)
  | Except.ok loc =>
    match fs.node loc with
    | none => (Except.error Errno.ENOENT, fs)
    | some Node.dir => (Except.error Errno.EISDIR, fs)
    | some (Node.file content) => (Except.ok content, fs)

/-- Model of `fs.writeFile(path, data)` (flag `w`): an existing regular file is
truncated and rewritten, a missing one is created in its existing parent
directory. -/
def posixWriteFile (cwd : Path) (p : String) (data : String) (fs : FS) :
    Except Errno Unit × FS :=
  match locate fs cwd p with
  | Except.error e => (Except.error e, fs)
  | Except.ok loc =>
    match fs.node loc with
    | some Node.dir => (Except.error Errno.EISDIR, fs)
    | some (Node.file _) => (Except.ok (), fs.put loc (Node.file data))
    | none =>
      if fs.node loc.dropLast = some Node.dir then
        (Except.ok (), fs.put loc (Node.file data))
      else (Except.error Errno.ENOENT, fs)

/-- Model of `fs.unlink(path)`. -/
def posixUnlink (cwd : Path) (p : String) (fs : FS) : Except Errno Unit × FS :=
  match locate fs cwd p with
  | Except.error e => (Except.error e, fs)
  | Except.ok loc =>
    match fs.node loc with
    | none => (Except.error Errno.ENOENT, fs)
    | some Node.dir => (Except.error Errno.EISDIR, fs)
    | some (Node.file _) => (Except.ok (), fs.remove loc)

/-- Model of `fs.readdir(path)`. -/
def posixReaddir (cwd : Path) (p : String) (fs : FS) : Except Errno (List String) × FS :=
  match locate fs cwd p with
  | Except.error e => (Except.error e, fs)
  | Except.ok loc =>
    match fs.node loc with
    | none => (Except.error Errno.ENOENT, fs)
    | some (Node.file _) => (Except.error Errno.ENOTDIR, fs)
    | some Node.dir => (Except.ok (fs.names loc), fs)

/-- Directory creation along the components of a path: a missing component is
created as a directory, a component that is a regular file stops the walk. -/
def mkdirWalk : FS → Path → List String → Except Errno Unit × FS
  | fs, cur, [] =>
    match fs.node cur with
    | some Node.dir => (Except.ok (), fs)
    | some (Node.file _) => (Except.error Errno.EEXIST, fs)
    | none => (Except.error Errno.ENOENT, fs)
  | fs, cur, seg :: rest =>
    match fs.node cur with
    | none => (Except.error Errno.ENOENT, fs)
    | some (Node.file _) => (Except.error Errno.ENOTDIR, fs)
    | some Node.dir =>
      if NAME_MAX < seg.utf8ByteSize then (Except.error Errno.ENAMETOOLONG, fs)
      else if seg = "." ∨ seg = ".." then mkdirWalk fs (stepTo cur seg) rest
      else
        match fs.node (stepTo cur seg) with
        | none => mkdirWalk (fs.put (stepTo cur seg) Node.dir) (stepTo cur seg) rest
        | some _ => mkdirWalk fs (stepTo cur seg) rest

/-- Model of `fs.mkdir(path, { recursive: true })`. -/
def posixMkdir (cwd : Path) (p : String) (fs : FS) : Except Errno Unit × FS :=
  if (Char.ofNat 0) ∈ p.toList then (Except.error Errno.ERR_INVALID_ARG_VALUE, fs)
  else if p = "" then (Except.error Errno.ENOENT, fs)
  else mkdirWalk fs (if isAbsolute p then [] else cwd) (components p)

/-! ## The `fs.promises` functions used by `main.js` -/

/-- An implementation of the `fs.promises` functions that `main.js` calls, over
a state `σ` of the world and a type `ε` of thrown errors.  Each call takes the
world, succeeds with a value or fails with an error, and leaves a world. -/
structure FsPromises (ε σ : Type) where
  access : String → σ → Except ε Unit × σ
  readFile : String → σ → Except ε String × σ
  writeFile : String → String → σ → Except ε Unit × σ
  unlink : String → σ → Except ε Unit × σ
  readdir : String → σ → Except ε (List String) × σ
  mkdir : String → σ → Except ε Unit × σ

/-- The file-system model as an implementation of `fs.promises`, for a process
whose working directory is `cwd`. -/
def nodeFs (cwd : Path) : FsPromises Errno FS where
  access := posixAccess cwd
  readFile := posixReadFile cwd
  writeFile := posixWriteFile cwd
  unlink := posixUnlink cwd
  readdir := posixReaddir cwd
  mkdir := posixMkdir cwd

/-- Whether path resolution looks a component up in one of the given
directories. -/
def searchesIn (noSearch : List Path) (fs : FS) : Path → List String → Bool
  | _, [] => false
  | cur, seg :: rest =>
    match fs.node cur with
    | some Node.dir =>
      if cur ∈ noSearch then true
      else if NAME_MAX < seg.utf8ByteSize then false
      else searchesIn noSearch fs (stepTo cur seg) rest
    | _ => false

/-- Whether a call on a path is refused for want of search permission on one
of the directories `noSearch`. -/
def refused (noSearch : List Path) (cwd : Path) (p : String) (fs : FS) : Bool :=
  decide ((Char.ofNat 0) ∉ p.toList ∧ p ≠ "") &&
    searchesIn noSearch fs (if isAbsolute p then [] else cwd) (components p)

/-- The file system as a process sees it that has no search permission on the
directories `noSearch`: a call whose path resolution looks a component up in
one of them fails with `EACCES` and changes nothing, every other call is that
of `nodeFs`. -/
def guardedFs (cwd : Path) (noSearch : List Path) : FsPromises Errno FS where
  access p fs :=
    if refused noSearch cwd p fs then (Except.error Errno.EACCES, fs) else posixAccess cwd p fs
  readFile p fs :=
    if refused noSearch cwd p fs then (Except.error Errno.EACCES, fs) else posixReadFile cwd p fs
  writeFile p data fs :=
    if refused noSearch cwd p fs then (Except.error Errno.EACCES, fs)
    else posixWriteFile cwd p data fs
  unlink p fs :=
    if refused noSearch cwd p fs then (Except.error Errno.EACCES, fs) else posixUnlink cwd p fs
  readdir p fs :=
    if refused noSearch cwd p fs then (Except.error Errno.EACCES, fs) else posixReaddir cwd p fs
  mkdir p fs :=
    if refused noSearch cwd p fs then (Except.error Errno.EACCES, fs) else posixMkdir cwd p fs

/-! ## Responses and asynchronous handler bodies -/

/-- One element of the array sent by `GET /notes`. -/
structure Note where
  name : String
  text : String
  deriving DecidableEq, Repr

/-- A response body: text given to `res.send`, or the array given to `res.json`. -/
inductive Body
  | text (s : String)
  | json (notes : List Note)
  deriving DecidableEq, Repr

/-- A response: status code and body. -/
structure Response where
  status : Nat
  body : Body
  deriving DecidableEq, Repr

/-- The world while one request is handled: the file-system state and the
responses sent on `res` so far. -/
structure Exchange (σ : Type) where
  fs : σ
  sent : List Response

/-- An `async` function body: it runs on the world and either returns a value
or throws, and the effects it had before throwing persist. -/
def Async (ε σ α : Type) : Type := Exchange σ → Except ε α × Exchange σ

/-- The body `return a`. -/
def Async.pure {ε σ α : Type} (a : α) : Async ε σ α :=
  fun x => (Except.ok a, x)

/-- Sequencing: the rest runs only when the first part did not throw. -/
def Async.bind {ε σ α β : Type} (m : Async ε σ α) (f : α → Async ε σ β) : Async ε σ β :=
  fun x =>
    match m x with
    | (Except.ok a, y) => f a y
    | (Except.error e, y) => (Except.error e, y)

instance instMonadAsync {ε σ : Type} : Monad (Async ε σ) where
  pure := Async.pure
  bind := Async.bind

/-- The statement `try body catch (error) handler`. -/
def tryCatch {ε σ α : Type} (body : Async ε σ α) (handler : ε → Async ε σ α) : Async ε σ α :=
  fun x =>
    match body x with
    | (Except.ok a, y) => (Except.ok a, y)
    | (Except.error e, y) => handler e y

/-- The expression `await fs.f(...)`: one call of a file-system function. -/
def await {ε σ α : Type} (call : σ → Except ε α × σ) : Async ε σ α :=
  fun x => ((call x.fs).1, { x with fs := (call x.fs).2 })

/-- The call `res.status(status).send(body)` (or `res.json(body)`): one more
response on `res`. -/
def send {ε σ : Type} (status : Nat) (body : Body) : Async ε σ Unit :=
  fun x => (Except.ok (), { x with sent := x.sent ++ [⟨status, body⟩] })

/-- The call `Promise.all(promises)`: the values in order, or the first failure. -/
def promiseAll {ε σ α : Type} : List (Async ε σ α) → Async ε σ (List α)
  | [] => Async.pure []
  | p :: ps => Async.bind p (fun a => Async.bind (promiseAll ps) (fun as => Async.pure (a :: as)))

/-! ## `main.js` -/

section Handlers

variable {ε σ : Type}

/-- The function `noteExists(noteName)`. -/
def noteExists (fs : FsPromises ε σ) (cache noteName : String) : Async ε σ Bool :=
  tryCatch
    (do
      await (fs.access (path.join cache (noteName ++ ".txt")))
      pure true)
    (fun _ => pure false)

/-- Handler of `GET /notes/:noteName`. -/
def getNote (fs : FsPromises ε σ) (cache noteName : String) : Async ε σ Unit :=
  tryCatch
    (do
      if !(← noteExists fs cache noteName) then
        send 404 (Body.text "Note not found")
      else do
        let content ← await (fs.readFile (path.join cache (noteName ++ ".txt")))
        send 200 (Body.text content))
    (fun _ => send 500 (Body.text "Internal Server Error"))

/-- Handler of `PUT /notes/:noteName`; `body` is `req.body`. -/
def putNote (fs : FsPromises ε σ) (cache noteName body : String) : Async ε σ Unit :=
  tryCatch
    (do
      if !(← noteExists fs cache noteName) then
        send 404 (Body.text "Note not found")
      else do
        await (fs.writeFile (path.join cache (noteName ++ ".txt")) body)
        send 200 (Body.text "Note updated"))
    (fun _ => send 500 (Body.text "Internal Server Error"))

/-- Handler of `DELETE /notes/:noteName`. -/
def deleteNote (fs : FsPromises ε σ) (cache noteName : String) : Async ε σ Unit :=
  tryCatch
    (do
      if !(← noteExists fs cache noteName) then
        send 404 (Body.text "Note not found")
      else do
        await (fs.unlink (path.join cache (noteName ++ ".txt")))
        send 200 (Body.text "Note deleted"))
    (fun _ => send 500 (Body.text "Internal Server Error"))

/-- The function mapped over the listed files by `GET /notes`:
`async (file) => { name, text }`. -/
def readNote (fs : FsPromises ε σ) (cache file : String) : Async ε σ Note := do
  let name := path.basename file ".txt"
  let text ← await (fs.readFile (path.join cache file))
  pure (Note.mk name text)

/-- Handler of `GET /notes`. -/
def listNotes (fs : FsPromises ε σ) (cache : String) : Async ε σ Unit :=
  tryCatch
    (do
      let files ← await (fs.readdir cache)
      let notes ← promiseAll
        ((files.filter (fun file => endsWith file ".txt")).map (readNote fs cache))
      send 200 (Body.json notes))
    (fun _ => send 500 (Body.text "Internal Server Error"))

/-- Handler of `POST /write`; `note_name` and `note` are the fields of `req.body`. -/
def postWrite (fs : FsPromises ε σ) (cache note_name note : String) : Async ε σ Unit :=
  tryCatch
    (do
      if (← noteExists fs cache note_name) then
        send 400 (Body.text "Note already exists")
      else do
        await (fs.writeFile (path.join cache (note_name ++ ".txt")) note)
        send 201 (Body.text "Note created"))
    (fun _ => send 500 (Body.text "Internal Server Error"))

/-- The function `ensureCacheDirectory()`. -/
def ensureCacheDirectory (fs : FsPromises ε σ) (cache : String) : Async ε σ Unit :=
  tryCatch (await (fs.access cache)) (fun _ => await (fs.mkdir cache))

/-- A request to one of the note routes, with its decoded text parameters. -/
inductive Request
  | listNotes
  | getNote (noteName : String)
  | putNote (noteName body : String)
  | deleteNote (noteName : String)
  | postWrite (note_name note : String)
  deriving DecidableEq, Repr

/-- The handler that the router runs for a request. -/
def route (fs : FsPromises ε σ) (cache : String) : Request → Async ε σ Unit
  | Request.listNotes => listNotes fs cache
  | Request.getNote noteName => getNote fs cache noteName
  | Request.putNote noteName body => putNote fs cache noteName body
  | Request.deleteNote noteName => deleteNote fs cache noteName
  | Request.postWrite note_name note => postWrite fs cache note_name note

/-- Outcome of handling one request on a fresh `res`: whether the handler
returned or threw, the responses it sent, and the file system it left. -/
structure Outcome (ε σ : Type) where
  result : Except ε Unit
  sent : List Response
  fs : σ

/-- Handle one request in a world. -/
def handle (fs : FsPromises ε σ) (cache : String) (req : Request) (w : σ) : Outcome ε σ :=
  let r := route fs cache req ⟨w, []⟩
  ⟨r.1, r.2.sent, r.2.fs⟩

end Handlers

/-! ## Loading the module -/

/-- A statement at the top level of `main.js`, as far as loading the module
depends on it: the line it starts on, the names it declares with `const`, and
the names declared with `const` at the top level that it reads when it runs. -/
structure TopLevel where
  line : Nat
  declares : List String
  reads : List String
  deriving DecidableEq, Repr

/-- The statements at the top level of `main.js`, in order.  The two function
declarations (`noteExists`, `ensureCacheDirectory`) are hoisted and declare no
`const`; the route registrations read `app` and call nothing before a request
arrives. -/
def mainJs : List TopLevel :=
  [⟨1, ["program"], []⟩,
   ⟨2, ["path"], []⟩,
   ⟨3, ["express"], []⟩,
   ⟨4, ["fs"], []⟩,
   ⟨5, ["multer"], []⟩,
   ⟨7, ["swaggerJsDoc"], []⟩,
   ⟨9, ["options"], []⟩,
   ⟨26, ["swaggerDocs"], ["swaggerJsDoc", "options"]⟩,
   ⟨27, [], ["swaggerDocs"]⟩,
   ⟨29, ["swaggerUi"], []⟩,
   ⟨30, ["swaggerDocs"], []⟩,
   ⟨32, [], ["app", "swaggerUi", "swaggerDocs"]⟩,
   ⟨36, ["upload"], ["multer"]⟩,
   ⟨37, ["app"], ["express"]⟩,
   ⟨39, [], ["program"]⟩,
   ⟨45, ["host", "port", "cache"], ["program"]⟩,
   ⟨47, [], ["app", "express"]⟩,
   ⟨48, [], ["app", "express"]⟩,
   ⟨79, [], ["app"]⟩,
   ⟨115, [], ["app"]⟩,
   ⟨147, [], ["app"]⟩,
   ⟨161, [], ["app"]⟩,
   ⟨179, [], ["app", "upload"]⟩,
   ⟨193, [], ["app"]⟩,
   ⟨214, [], ["app"]⟩,
   ⟨228, ["server"], ["app", "port", "host"]⟩]

/-- Why a module does not load. -/
inductive LoadError
  | alreadyDeclared (name : String)
  | beforeInitialization (name : String)
  deriving DecidableEq, Repr

/-- The first name that occurs a second time. -/
def firstRepeated : List String → List String → Option String
  | _, [] => none
  | seen, n :: rest => if n ∈ seen then some n else firstRepeated (n :: seen) rest

/-- Running the statements in order: a statement that reads a `const` not yet
initialized throws a `ReferenceError`. -/
def runTopLevel : List String → List TopLevel → Except LoadError Unit
  | _, [] => Except.ok ()
  | ready, s :: rest =>
    match s.reads.find? (fun n => decide (n ∉ ready)) with
    | some n => Except.error (LoadError.beforeInitialization n)
    | none => runTopLevel (ready ++ s.declares) rest

/-- Loading a module.  A name declared twice with `const` in one scope is an
early `SyntaxError`: no statement of the module runs.  Otherwise the
statements run in order. -/
def loadModule (m : List TopLevel) : Except LoadError Unit :=
  match firstRepeated [] (m.flatMap (fun s => s.declares)) with
  | some n => Except.error (LoadError.alreadyDeclared n)
  | none => runTopLevel [] m

/-! ## A sample world -/

/-- Working directory of the sample process: `/srv/app`. -/
def demoCwd : Path := ["srv", "app"]

/-- A sample file system: the cache directory `/srv/app/cache` holds the note
file `a.txt`, a file without the note extension and a subdirectory. -/
def demoFs : FS :=
  ⟨[(["srv"], Node.dir), (["srv", "app"], Node.dir), (["srv", "app", "cache"], Node.dir),
    (["srv", "app", "cache", "a.txt"], Node.file "alpha"),
    (["srv", "app", "cache", "readme.md"], Node.file "not a note"),
    (["srv", "app", "cache", "sub"], Node.dir)]⟩

/-- A sample file system in which the cache directory holds a directory named
`d.txt`. -/
def oddFs : FS :=
  ⟨[(["srv"], Node.dir), (["srv", "app"], Node.dir), (["srv", "app", "cache"], Node.dir),
    (["srv", "app", "cache", "d.txt"], Node.dir)]⟩

/-- A sample file system in which the cache directory does not exist yet. -/
def bareFs : FS :=
  ⟨[(["srv"], Node.dir), (["srv", "app"], Node.dir)]⟩

/-! ## The association list behind the file system -/

theorem assoc_append (l : List (Path × Node)) (p q : Path) (n : Node) :
    assoc (l ++ [(p, n)]) q =
      match assoc l q with
      | some v => some v
      | none => if p = q then some n else none := by
  induction l with
  | nil => simp [assoc]
  | cons e l ih =>
    obtain ⟨k, v⟩ := e
    by_cases hk : k = q
    · simp [assoc, hk]
    · simp [assoc, hk, ih]

theorem assoc_replaceAt (l : List (Path × Node)) (p q : Path) (n : Node) :
    assoc (replaceAt p n l) q =
      if q = p then (assoc l q).map (fun _ => n) else assoc l q := by
  induction l with
  | nil => simp [assoc, replaceAt]
  | cons e l ih =>
    obtain ⟨k, v⟩ := e
    simp only [replaceAt]
    by_cases hk : k = p
    · rw [if_pos hk]
      by_cases hq : q = p
      · simp [assoc, hk, hq]
      · have hpq : ¬ p = q := fun h => hq h.symm
        simp [assoc, hk, hq, hpq, ih]
    · rw [if_neg hk]
      by_cases hq : k = q
      · have hqp : ¬ q = p := fun h => hk (hq.trans h)
        simp [assoc, hq, hqp]
      · simp [assoc, hq, ih]

theorem assoc_removeAt (l : List (Path × Node)) (p q : Path) :
    assoc (removeAt p l) q = if q = p then none else assoc l q := by
  induction l with
  | nil => simp [assoc, removeAt]
  | cons e l ih =>
    obtain ⟨k, v⟩ := e
    simp only [removeAt]
    by_cases hk : k = p
    · rw [if_pos hk, ih]
      by_cases hq : q = p
      · simp [hq]
      · have hpq : ¬ p = q := fun h => hq h.symm
        simp [hq, assoc, hk, hpq]
    · rw [if_neg hk]
      by_cases hq : k = q
      · have hqp : ¬ q = p := fun h => hk (hq.trans h)
        simp [assoc, hq, hqp]
      · simp [assoc, hq, ih]

/-- A location other than the one written holds what it held. -/
theorem node_put_of_ne (fs : FS) (p q : Path) (n : Node) (h : q ≠ p) :
    (fs.put p n).node q = fs.node q := by
  have hpq : ¬ p = q := fun e => h e.symm
  unfold FS.put FS.node
  cases ha : assoc fs.entries p with
  | none => 
    by_cases hq : q = []
    · simp [hq]
    · simp only [hq, if_false, assoc_append]
      cases assoc fs.entries q <;> simp [hpq]
  | some v => simp [assoc_replaceAt, h]

/-- The location written holds the node written. -/
theorem node_put_self (fs : FS) (p : Path) (n : Node) (h : p ≠ []) :
    (fs.put p n).node p = some n := by
  unfold FS.put FS.node
  cases ha : assoc fs.entries p with
  | none => simp [h, assoc_append, ha]
  | some v => simp [h, assoc_replaceAt, ha]

theorem node_remove_of_ne (fs : FS) (p q : Path) (h : q ≠ p) :
    (fs.remove p).node q = fs.node q := by
  simp [FS.remove, FS.node, assoc_removeAt, h]

theorem node_remove_self (fs : FS) (p : Path) (h : p ≠ []) :
    (fs.remove p).node p = none := by
  simp [FS.remove, FS.node, assoc_removeAt, h]

/-- A location that holds something is not the root unless it holds a directory. -/
theorem ne_nil_of_node_file (fs : FS) (p : Path) (c : String)
    (h : fs.node p = some (Node.file c)) : p ≠ [] := by
  intro e
  simp [FS.node, e] at h

theorem ne_nil_of_node_none (fs : FS) (p : Path) (h : fs.node p = none) : p ≠ [] := by
  intro e
  simp [FS.node, e] at h

/-! ## Path resolution in a changed file system -/

/-- Resolution that succeeds still succeeds, at the same location, in a file
system that keeps every directory. -/
theorem walk_of_dirs_kept (fs fs2 : FS)
    (keep : ∀ q, fs.node q = some Node.dir → fs2.node q = some Node.dir)
    (segs : List String) (cur loc : Path) (h : walk fs cur segs = Except.ok loc) :
    walk fs2 cur segs = Except.ok loc := by
  induction segs generalizing cur with
  | nil => simpa [walk] using h
  | cons seg rest ih =>
    unfold walk at h ⊢
    cases hn : fs.node cur with
    | none => simp [hn] at h
    | some nd =>
      cases nd with
      | file c => simp [hn] at h
      | dir =>
        simp only [hn] at h
        simp only [keep cur hn]
        split_ifs at h ⊢ with h1
        exact ih _ h

/-- Two file systems that differ only at one location, which holds a directory
in neither, resolve every path alike: to the same location, or not at all. -/
theorem walk_toOption_of_eq_off (fs fs2 : FS) (L : Path)
    (off : ∀ q, q ≠ L → fs2.node q = fs.node q)
    (h1 : fs.node L ≠ some Node.dir) (h2 : fs2.node L ≠ some Node.dir)
    (segs : List String) (cur : Path) :
    (walk fs2 cur segs).toOption = (walk fs cur segs).toOption := by
  induction segs generalizing cur with
  | nil => simp [walk]
  | cons seg rest ih =>
    unfold walk
    by_cases hc : cur = L
    · subst hc
      have e1 : ∀ (g : FS) (o : Option Node), o ≠ some Node.dir →
          (match o with
            | none => (Except.error Errno.ENOENT : Except Errno Path)
            | some (Node.file _) => Except.error Errno.ENOTDIR
            | some Node.dir =>
              if NAME_MAX < seg.utf8ByteSize then Except.error Errno.ENAMETOOLONG
              else walk g (stepTo cur seg) rest).toOption = none := by
        intro g o ho
        rcases o with _ | (_ | _) <;> simp_all [Except.toOption]
      rw [e1 fs _ h1, e1 fs2 _ h2]
    · rw [off cur hc]
      rcases fs.node cur with _ | (_ | _)
      · rfl
      · rfl
      · simp only
        split_ifs
        · rfl
        · exact ih _

/-! ## What each handler does, call by call -/

section Generic

variable {ε σ : Type}

theorem noteExists_run (fs : FsPromises ε σ) (cache n : String) (x : Exchange σ) :
    noteExists fs cache n x =
      (Except.ok (fs.access (path.join cache (n ++ ".txt")) x.fs).1.isOk,
        { x with fs := (fs.access (path.join cache (n ++ ".txt")) x.fs).2 }) := by
  simp only [noteExists, tryCatch, bind, Async.bind, await, pure, Async.pure]
  cases h : (fs.access (path.join cache (n ++ ".txt")) x.fs).1 <;>
    simp [Except.isOk, Except.toBool]

theorem handle_getNote (fs : FsPromises ε σ) (cache n : String) (w : σ) :
    handle fs cache (Request.getNote n) w =
      match fs.access (path.join cache (n ++ ".txt")) w with
      | (Except.error _, w1) => ⟨Except.ok (), [⟨404, Body.text "Note not found"⟩], w1⟩
      | (Except.ok _, w1) =>
        match fs.readFile (path.join cache (n ++ ".txt")) w1 with
        | (Except.ok content, w2) => ⟨Except.ok (), [⟨200, Body.text content⟩], w2⟩
        | (Except.error _, w2) =>
          ⟨Except.ok (), [⟨500, Body.text "Internal Server Error"⟩], w2⟩ := by
  simp only [handle, route, getNote, tryCatch, bind, Async.bind, noteExists_run]
  rcases h : fs.access (path.join cache (n ++ ".txt")) w with ⟨r, w1⟩
  cases r with
  | error e => simp [h, Except.isOk, Except.toBool, send]
  | ok u =>
    simp only [h, Except.isOk, Except.toBool, send, await]
    rcases h2 : fs.readFile (path.join cache (n ++ ".txt")) w1 with ⟨r2, w2⟩
    cases r2 <;> simp [h2, Async.bind, await, send]

theorem handle_putNote (fs : FsPromises ε σ) (cache n body : String) (w : σ) :
    handle fs cache (Request.putNote n body) w =
      match fs.access (path.join cache (n ++ ".txt")) w with
      | (Except.error _, w1) => ⟨Except.ok (), [⟨404, Body.text "Note not found"⟩], w1⟩
      | (Except.ok _, w1) =>
        match fs.writeFile (path.join cache (n ++ ".txt")) body w1 with
        | (Except.ok _, w2) => ⟨Except.ok (), [⟨200, Body.text "Note updated"⟩], w2⟩
        | (Except.error _, w2) =>
          ⟨Except.ok (), [⟨500, Body.text "Internal Server Error"⟩], w2⟩ := by
  simp only [handle, route, putNote, tryCatch, bind, Async.bind, noteExists_run]
  rcases h : fs.access (path.join cache (n ++ ".txt")) w with ⟨r, w1⟩
  cases r with
  | error e => simp [h, Except.isOk, Except.toBool, send]
  | ok u =>
    simp only [h, Except.isOk, Except.toBool, send, await]
    rcases h2 : fs.writeFile (path.join cache (n ++ ".txt")) body w1 with ⟨r2, w2⟩
    cases r2 <;> simp [h2, Async.bind, await, send]

theorem handle_deleteNote (fs : FsPromises ε σ) (cache n : String) (w : σ) :
    handle fs cache (Request.deleteNote n) w =
      match fs.access (path.join cache (n ++ ".txt")) w with
      | (Except.error _, w1) => ⟨Except.ok (), [⟨404, Body.text "Note not found"⟩], w1⟩
      | (Except.ok _, w1) =>
        match fs.unlink (path.join cache (n ++ ".txt")) w1 with
        | (Except.ok _, w2) => ⟨Except.ok (), [⟨200, Body.text "Note deleted"⟩], w2⟩
        | (Except.error _, w2) =>
          ⟨Except.ok (), [⟨500, Body.text "Internal Server Error"⟩], w2⟩ := by
  simp only [handle, route, deleteNote, tryCatch, bind, Async.bind, noteExists_run]
  rcases h : fs.access (path.join cache (n ++ ".txt")) w with ⟨r, w1⟩
  cases r with
  | error e => simp [h, Except.isOk, Except.toBool, send]
  | ok u =>
    simp only [h, Except.isOk, Except.toBool, send, await]
    rcases h2 : fs.unlink (path.join cache (n ++ ".txt")) w1 with ⟨r2, w2⟩
    cases r2 <;> simp [h2, Async.bind, await, send]

theorem handle_postWrite (fs : FsPromises ε σ) (cache n note : String) (w : σ) :
    handle fs cache (Request.postWrite n note) w =
      match fs.access (path.join cache (n ++ ".txt")) w with
      | (Except.ok _, w1) => ⟨Except.ok (), [⟨400, Body.text "Note already exists"⟩], w1⟩
      | (Except.error _, w1) =>
        match fs.writeFile (path.join cache (n ++ ".txt")) note w1 with
        | (Except.ok _, w2) => ⟨Except.ok (), [⟨201, Body.text "Note created"⟩], w2⟩
        | (Except.error _, w2) =>
          ⟨Except.ok (), [⟨500, Body.text "Internal Server Error"⟩], w2⟩ := by
  simp only [handle, route, postWrite, tryCatch, bind, Async.bind, noteExists_run]
  rcases h : fs.access (path.join cache (n ++ ".txt")) w with ⟨r, w1⟩
  cases r with
  | ok u => simp [h, Except.isOk, Except.toBool, send]
  | error e =>
    simp only [h, Except.isOk, Except.toBool, send, await]
    rcases h2 : fs.writeFile (path.join cache (n ++ ".txt")) note w1 with ⟨r2, w2⟩
    cases r2 <;> simp [h2, Async.bind, await, send]

theorem readNote_run (fs : FsPromises ε σ) (cache file : String) (x : Exchange σ) :
    readNote fs cache file x =
      match fs.readFile (path.join cache file) x.fs with
      | (Except.ok text, w1) =>
        (Except.ok (Note.mk (path.basename file ".txt") text), { x with fs := w1 })
      | (Except.error e, w1) => (Except.error e, { x with fs := w1 }) := by
  simp only [readNote, bind, Async.bind, await, pure, Async.pure]
  rcases h : fs.readFile (path.join cache file) x.fs with ⟨r, w1⟩
  cases r <;> rfl

/-- The reads of `GET /notes` send nothing. -/
theorem promiseAll_readNote_sent (fs : FsPromises ε σ) (cache : String) (files : List String)
    (x : Exchange σ) :
    (promiseAll (files.map (readNote fs cache)) x).2.sent = x.sent := by
  induction files generalizing x with
  | nil => simp [promiseAll, Async.pure]
  | cons f rest ih =>
    simp only [List.map_cons, promiseAll, Async.bind, readNote_run]
    rcases h : fs.readFile (path.join cache f) x.fs with ⟨r, w1⟩
    cases r with
    | error e => simp
    | ok text =>
      simp only
      have := ih ⟨w1, x.sent⟩
      rcases h2 : promiseAll (rest.map (readNote fs cache)) ⟨w1, x.sent⟩ with ⟨r2, y⟩
      rw [h2] at this
      cases r2 <;> simpa [Async.pure] using this

/-- When reads leave the world as it is, a listed file whose read fails makes
the reads of `GET /notes` fail. -/
theorem promiseAll_readNote_error (fs : FsPromises ε σ) (cache : String)
    (hpure : ∀ p w, (fs.readFile p w).2 = w) (files : List String) (x : Exchange σ)
    (f : String) (hf : f ∈ files) (e : ε)
    (hfail : (fs.readFile (path.join cache f) x.fs).1 = Except.error e) :
    ∃ e2, (promiseAll (files.map (readNote fs cache)) x).1 = Except.error e2 := by
  induction files with
  | nil => simp at hf
  | cons g rest ih =>
    simp only [List.map_cons, promiseAll, Async.bind, readNote_run]
    have hp := hpure (path.join cache g) x.fs
    rcases h : fs.readFile (path.join cache g) x.fs with ⟨r, w1⟩
    rw [h] at hp
    simp only at hp
    subst hp
    cases r with
    | error e1 => exact ⟨e1, rfl⟩
    | ok text =>
      simp only
      have hfr : f ∈ rest := by
        rcases List.mem_cons.mp hf with hfg | hfr
        · subst hfg
          rw [h] at hfail
          cases hfail
        · exact hfr
      obtain ⟨e2, he2⟩ := ih hfr
      rcases h2 : promiseAll (rest.map (readNote fs cache)) x with ⟨r2, y⟩
      rw [h2] at he2
      simp only at he2
      subst he2
      exact ⟨e2, rfl⟩

theorem handle_listNotes (fs : FsPromises ε σ) (cache : String) (w : σ) :
    handle fs cache Request.listNotes w =
      match fs.readdir cache w with
      | (Except.error _, w1) => ⟨Except.ok (), [⟨500, Body.text "Internal Server Error"⟩], w1⟩
      | (Except.ok files, w1) =>
        match promiseAll ((files.filter (fun file => endsWith file ".txt")).map
            (readNote fs cache)) ⟨w1, []⟩ with
        | (Except.ok notes, x) => ⟨Except.ok (), [⟨200, Body.json notes⟩], x.fs⟩
        | (Except.error _, x) =>
          ⟨Except.ok (), [⟨500, Body.text "Internal Server Error"⟩], x.fs⟩ := by
  simp only [handle, route, listNotes, tryCatch, bind, Async.bind, await]
  rcases h : fs.readdir cache w with ⟨r, w1⟩
  cases r with
  | error e => simp [h, send]
  | ok files =>
    simp only [h]
    have hs := promiseAll_readNote_sent fs cache
      (files.filter (fun file => endsWith file ".txt")) ⟨w1, []⟩
    rcases h2 : promiseAll ((files.filter (fun file => endsWith file ".txt")).map
        (readNote fs cache)) ⟨w1, []⟩ with ⟨r2, x⟩
    rw [h2] at hs
    simp only at hs
    cases r2 <;> simp [h2, send, hs]

end Generic

/-! ## The file-system calls in terms of what a path names -/

theorem nodeFs_access (cwd : Path) : (nodeFs cwd).access = posixAccess cwd := rfl

theorem nodeFs_readFile (cwd : Path) : (nodeFs cwd).readFile = posixReadFile cwd := rfl

theorem nodeFs_writeFile (cwd : Path) : (nodeFs cwd).writeFile = posixWriteFile cwd := rfl

theorem nodeFs_unlink (cwd : Path) : (nodeFs cwd).unlink = posixUnlink cwd := rfl

theorem nodeFs_readdir (cwd : Path) : (nodeFs cwd).readdir = posixReaddir cwd := rfl

theorem nodeFs_mkdir (cwd : Path) : (nodeFs cwd).mkdir = posixMkdir cwd := rfl

theorem locate_put (fs : FS) (cwd : Path) (p : String) (L loc : Path) (n : Node)
    (hL : fs.node L ≠ some Node.dir) (h : locate fs cwd p = Except.ok loc) :
    locate (fs.put L n) cwd p = Except.ok loc := by
  unfold locate at h ⊢
  have keep : ∀ q, fs.node q = some Node.dir → (fs.put L n).node q = some Node.dir := by
    intro q hq
    have : q ≠ L := fun e => hL (e ▸ hq)
    rw [node_put_of_ne fs L q n this, hq]
  split_ifs at h ⊢ with h1 h2 h3 <;> exact walk_of_dirs_kept fs _ keep _ _ _ h

theorem locate_remove (fs : FS) (cwd : Path) (p : String) (L loc : Path)
    (hL : fs.node L ≠ some Node.dir) (h : locate fs cwd p = Except.ok loc) :
    locate (fs.remove L) cwd p = Except.ok loc := by
  unfold locate at h ⊢
  have keep : ∀ q, fs.node q = some Node.dir → (fs.remove L).node q = some Node.dir := by
    intro q hq
    have : q ≠ L := fun e => hL (e ▸ hq)
    rw [node_remove_of_ne fs L q this, hq]
  split_ifs at h ⊢ with h1 h2 h3 <;> exact walk_of_dirs_kept fs _ keep _ _ _ h

/-- What a path names is what its location holds. -/
theorem fileAt_eq_some (fs : FS) (cwd : Path) (p : String) (nd : Node)
    (h : fileAt fs cwd p = some nd) :
    ∃ loc, locate fs cwd p = Except.ok loc ∧ fs.node loc = some nd := by
  unfold fileAt at h
  cases hl : locate fs cwd p with
  | error e => simp [hl] at h
  | ok loc => exact ⟨loc, rfl, by simpa [hl] using h⟩

theorem canCreate_eq_true (fs : FS) (cwd : Path) (p : String) (h : canCreate fs cwd p = true) :
    ∃ loc, locate fs cwd p = Except.ok loc ∧ fs.node loc = none ∧
      fs.node loc.dropLast = some Node.dir := by
  unfold canCreate at h
  cases hl : locate fs cwd p with
  | error e => simp [hl] at h
  | ok loc =>
    simp only [hl, FS.vacant, decide_eq_true_eq] at h
    exact ⟨loc, rfl, h.1, h.2⟩

theorem posixAccess_snd (cwd : Path) (p : String) (fs : FS) : (posixAccess cwd p fs).2 = fs := by
  unfold posixAccess
  split
  · rfl
  · split <;> rfl

theorem posixAccess_of_some (cwd : Path) (p : String) (fs : FS) (nd : Node)
    (h : fileAt fs cwd p = some nd) : posixAccess cwd p fs = (Except.ok (), fs) := by
  obtain ⟨loc, hl, hn⟩ := fileAt_eq_some fs cwd p nd h
  simp [posixAccess, hl, hn]

theorem posixAccess_of_none (cwd : Path) (p : String) (fs : FS)
    (h : fileAt fs cwd p = none) : ∃ e, posixAccess cwd p fs = (Except.error e, fs) := by
  unfold fileAt at h
  unfold posixAccess
  cases hl : locate fs cwd p with
  | error e => exact ⟨e, rfl⟩
  | ok loc =>
    simp only [hl] at h
    exact ⟨Errno.ENOENT, by simp [h]⟩

theorem posixReadFile_snd (cwd : Path) (p : String) (fs : FS) :
    (posixReadFile cwd p fs).2 = fs := by
  unfold posixReadFile
  split
  · rfl
  · split <;> rfl

theorem posixReadFile_of_file (cwd : Path) (p : String) (fs : FS) (c : String)
    (h : fileAt fs cwd p = some (Node.file c)) : posixReadFile cwd p fs = (Except.ok c, fs) := by
  obtain ⟨loc, hl, hn⟩ := fileAt_eq_some fs cwd p _ h
  simp [posixReadFile, hl, hn]

theorem posixReaddir_snd (cwd : Path) (p : String) (fs : FS) :
    (posixReaddir cwd p fs).2 = fs := by
  unfold posixReaddir
  split
  · rfl
  · split <;> rfl

/-- Writing to a path that names a regular file replaces its text. -/
theorem posixWriteFile_of_file (cwd : Path) (p data : String) (fs : FS) (c : String)
    (h : fileAt fs cwd p = some (Node.file c)) :
    (posixWriteFile cwd p data fs).1 = Except.ok () ∧
      fileAt (posixWriteFile cwd p data fs).2 cwd p = some (Node.file data) := by
  obtain ⟨loc, hl, hn⟩ := fileAt_eq_some fs cwd p _ h
  have hd : fs.node loc ≠ some Node.dir := by simp [hn]
  have h0 := ne_nil_of_node_file fs loc c hn
  simp [posixWriteFile, hl, hn, fileAt, locate_put fs cwd p loc loc _ hd hl,
    node_put_self fs loc _ h0]

/-- Writing to a path that names nothing inside an existing directory creates
the file. -/
theorem posixWriteFile_of_canCreate (cwd : Path) (p data : String) (fs : FS)
    (h : canCreate fs cwd p = true) :
    (posixWriteFile cwd p data fs).1 = Except.ok () ∧
      fileAt (posixWriteFile cwd p data fs).2 cwd p = some (Node.file data) := by
  obtain ⟨loc, hl, hn, hp⟩ := canCreate_eq_true fs cwd p h
  have hd : fs.node loc ≠ some Node.dir := by simp [hn]
  have h0 := ne_nil_of_node_none fs loc hn
  simp [posixWriteFile, hl, hn, hp, fileAt, locate_put fs cwd p loc loc _ hd hl,
    node_put_self fs loc _ h0]

/-- Writing to a path that names nothing and has no directory to hold it
fails and changes nothing. -/
theorem posixWriteFile_of_not_canCreate (cwd : Path) (p data : String) (fs : FS)
    (h0 : fileAt fs cwd p = none) (h : canCreate fs cwd p = false) :
    ∃ e, posixWriteFile cwd p data fs = (Except.error e, fs) := by
  unfold fileAt at h0
  unfold canCreate at h
  unfold posixWriteFile
  cases hl : locate fs cwd p with
  | error e => exact ⟨e, rfl⟩
  | ok loc =>
    simp only [hl] at h h0
    simp only [FS.vacant, h0, true_and, decide_eq_false_iff_not] at h
    exact ⟨Errno.ENOENT, by simp [h0, h]⟩

/-- Unlinking a path that names a regular file removes it. -/
theorem posixUnlink_of_file (cwd : Path) (p : String) (fs : FS) (c : String)
    (h : fileAt fs cwd p = some (Node.file c)) :
    (posixUnlink cwd p fs).1 = Except.ok () ∧ fileAt (posixUnlink cwd p fs).2 cwd p = none := by
  obtain ⟨loc, hl, hn⟩ := fileAt_eq_some fs cwd p _ h
  have hd : fs.node loc ≠ some Node.dir := by simp [hn]
  have h0 := ne_nil_of_node_file fs loc c hn
  simp [posixUnlink, hl, hn, fileAt, locate_remove fs cwd p loc loc hd hl,
    node_remove_self fs loc h0]

/-! ## Splitting and joining path strings -/

theorem splitSlash_ne_nil (l : List Char) : splitSlash l ≠ [] := by
  induction l with
  | nil => simp [splitSlash]
  | cons c cs ih =>
    unfold splitSlash
    split_ifs
    · simp
    · cases h : splitSlash cs <;> simp

theorem splitSlash_append_slash (a b : List Char) :
    splitSlash (a ++ '/' :: b) = splitSlash a ++ splitSlash b := by
  induction a with
  | nil => simp [splitSlash]
  | cons c cs ih =>
    by_cases hc : c = '/'
    · simp [splitSlash, hc, ih]
    · have hne := splitSlash_ne_nil cs
      cases h : splitSlash cs with
      | nil => exact absurd h hne
      | cons s ss => simp [splitSlash, hc, ih, h]

theorem splitSlash_of_no_slash (l : List Char) (h : '/' ∉ l) : splitSlash l = [l] := by
  induction l with
  | nil => rfl
  | cons c cs ih =>
    have hc : c ≠ '/' := fun e => h (by simp [e])
    have hcs : '/' ∉ cs := fun e => h (List.mem_cons_of_mem _ e)
    simp [splitSlash, hc, ih hcs]

/-- A piece between separators has no separator and only characters of the
string. -/
theorem mem_splitSlash (l s : List Char) (h : s ∈ splitSlash l) :
    '/' ∉ s ∧ ∀ c ∈ s, c ∈ l := by
  induction l generalizing s with
  | nil =>
    simp only [splitSlash, List.mem_singleton] at h
    subst h
    simp
  | cons c cs ih =>
    by_cases hc : c = '/'
    · simp only [splitSlash, hc, if_true, List.mem_cons] at h
      rcases h with h | h
      · subst h
        simp
      · obtain ⟨h1, h2⟩ := ih s h
        exact ⟨h1, fun x hx => List.mem_cons_of_mem _ (h2 x hx)⟩
    · have hne := splitSlash_ne_nil cs
      cases hs : splitSlash cs with
      | nil => exact absurd hs hne
      | cons t ts =>
        simp only [splitSlash, hc, if_false, hs, List.mem_cons] at h
        rcases h with h | h
        · subst h
          obtain ⟨h1, h2⟩ := ih t (by simp [hs])
          refine ⟨?_, ?_⟩
          · intro hm
            rcases List.mem_cons.mp hm with e | e
            · exact hc e.symm
            · exact h1 e
          · intro x hx
            rcases List.mem_cons.mp hx with e | e
            · simp [e]
            · exact List.mem_cons_of_mem _ (h2 x e)
        · obtain ⟨h1, h2⟩ := ih s (by simp [hs, h])
          exact ⟨h1, fun x hx => List.mem_cons_of_mem _ (h2 x hx)⟩

/-- A component of a path is not empty, has no separator, and has only
characters of the path. -/
theorem mem_segments (p s : String) (h : s ∈ segments p) :
    s ≠ "" ∧ '/' ∉ s.toList ∧ ∀ c ∈ s.toList, c ∈ p.toList := by
  simp only [segments, List.mem_filter, List.mem_map, decide_eq_true_eq] at h
  obtain ⟨⟨l, hl, rfl⟩, hne⟩ := h
  obtain ⟨h1, h2⟩ := mem_splitSlash _ _ hl
  exact ⟨hne, h1, h2⟩

theorem segments_append_slash (a b : String) :
    segments (a ++ "/" ++ b) = segments a ++ segments b := by
  have : (a ++ "/" ++ b).toList = a.toList ++ '/' :: b.toList := by
    simp [String.toList]
  simp only [segments, this, splitSlash_append_slash, List.map_append, List.filter_append]

theorem segments_of_name (f : String) (hne : f ≠ "") (h : '/' ∉ f.toList) :
    segments f = [f] := by
  simp only [segments, splitSlash_of_no_slash _ h, List.map_cons, List.map_nil]
  have : String.mk f.toList = f := rfl
  simp [this, hne]

theorem segments_empty : segments "" = [] := by decide

theorem segments_slash_append (s : String) : segments ("/" ++ s) = segments s := by
  have : ("/" ++ s).toList = '/' :: s.toList := by simp [String.toList]
  simp only [segments, this, splitSlash]
  simp

/-- Joining components and splitting the result gives the components back. -/
theorem segments_joinSlash (L : List String)
    (h : ∀ s ∈ L, s ≠ "" ∧ '/' ∉ s.toList) : segments (joinSlash L) = L := by
  induction L with
  | nil => exact segments_empty
  | cons s rest ih =>
    obtain ⟨hs1, hs2⟩ := h s (by simp)
    cases rest with
    | nil => simpa [joinSlash] using segments_of_name s hs1 hs2
    | cons t rest2 =>
      have := ih (fun x hx => h x (List.mem_cons_of_mem _ hx))
      simp only [joinSlash, segments_append_slash, this, segments_of_name s hs1 hs2]
      rfl

theorem joinSlash_toList_mem (L : List String) (c : Char) (h : c ∈ (joinSlash L).toList) :
    c = '/' ∨ ∃ s ∈ L, c ∈ s.toList := by
  induction L with
  | nil => simp [joinSlash] at h
  | cons s rest ih =>
    cases rest with
    | nil => exact Or.inr ⟨s, by simp, by simpa [joinSlash] using h⟩
    | cons t rest2 =>
      have hl : (s ++ "/" ++ joinSlash (t :: rest2)).toList =
          s.toList ++ '/' :: (joinSlash (t :: rest2)).toList := by
        simp [String.toList]
      simp only [joinSlash, hl, List.mem_append, List.mem_cons] at h
      rcases h with h | h | h
      · exact Or.inr ⟨s, by simp, h⟩
      · exact Or.inl h
      · rcases ih h with e | ⟨x, hx, hc⟩
        · exact Or.inl e
        · exact Or.inr ⟨x, List.mem_cons_of_mem _ hx, hc⟩

/-- The joined string starts with the first character of the first component. -/
theorem joinSlash_head (s : String) (rest : List String) (hs : s ≠ "") :
    (joinSlash (s :: rest)).toList.head? = s.toList.head? := by
  have hne : s.toList ≠ [] := by
    intro e
    apply hs
    cases s
    simp only [String.toList] at e
    subst e
    rfl
  cases rest with
  | nil => rfl
  | cons t rest2 =>
    have hl : (s ++ "/" ++ joinSlash (t :: rest2)).toList =
        s.toList ++ '/' :: (joinSlash (t :: rest2)).toList := by
      simp [String.toList]
    simp only [joinSlash, hl]
    cases h : s.toList with
    | nil => exact absurd h hne
    | cons c cs => rfl

/-! ## Normalization against path resolution -/

theorem walk_append (fs : FS) (a b : List String) (cur : Path) :
    walk fs cur (a ++ b) =
      match walk fs cur a with
      | Except.ok mid => walk fs mid b
      | Except.error e => Except.error e := by
  induction a generalizing cur with
  | nil => simp [walk]
  | cons seg rest ih =>
    simp only [List.cons_append, walk]
    rcases fs.node cur with _ | (c | _)
    · rfl
    · rfl
    · simp only
      split_ifs
      · rfl
      · exact ih _

theorem stepTo_dot (cur : Path) : stepTo cur "." = cur := by
  simp [stepTo]

theorem stepTo_dotdot (cur : Path) : stepTo cur ".." = cur.dropLast := by
  have : (".." : String) ≠ "." := by decide
  simp [stepTo, this]

theorem stepTo_name (cur : Path) (seg : String) (h1 : seg ≠ ".") (h2 : seg ≠ "..") :
    stepTo cur seg = cur ++ [seg] := by
  simp [stepTo, h1, h2]

/-- One component resolves exactly when it is looked up in a directory and is
not too long. -/
theorem walk_one (fs : FS) (cur loc : Path) (seg : String) :
    walk fs cur [seg] = Except.ok loc ↔
      fs.node cur = some Node.dir ∧ seg.utf8ByteSize ≤ NAME_MAX ∧ loc = stepTo cur seg := by
  unfold walk
  rcases hn : fs.node cur with _ | (c | _)
  · simp
  · simp
  · by_cases hlen : NAME_MAX < seg.utf8ByteSize
    · simp only [if_pos hlen]
      constructor
      · intro h
        cases h
      · intro h
        omega
    · simp only [if_neg hlen, walk, Except.ok.injEq, true_and]
      constructor
      · intro h
        exact ⟨by omega, h.symm⟩
      · intro h
        exact h.2.symm

/-- One plain component, looked up in a directory, leads to the entry of that
name. -/
theorem walk_name (fs : FS) (cur : Path) (seg : String)
    (hdir : fs.node cur = some Node.dir) (hlen : seg.utf8ByteSize ≤ NAME_MAX)
    (h1 : seg ≠ ".") (h2 : seg ≠ "..") :
    walk fs cur [seg] = Except.ok (cur ++ [seg]) :=
  (walk_one fs cur _ seg).mpr ⟨hdir, hlen, (stepTo_name cur seg h1 h2).symm⟩

/-- Every component that normalization keeps is a component of the path. -/
theorem mem_normStep (allow : Bool) (res : List String) (seg x : String)
    (h : x ∈ path.normStep allow res seg) : x ∈ res ∨ x = seg := by
  unfold path.normStep at h
  by_cases c1 : seg = "" ∨ seg = "."
  · rw [if_pos c1] at h
    exact Or.inl h
  · rw [if_neg c1] at h
    by_cases c2 : seg = ".."
    · rw [if_pos c2] at h
      cases hl : res.getLast? with
      | none =>
        simp only [hl] at h
        cases allow with
        | true =>
          simp only [if_true, List.mem_singleton] at h
          exact Or.inr (h.trans c2.symm)
        | false => simp at h
      | some l =>
        simp only [hl] at h
        by_cases c3 : l = ".."
        · rw [if_pos c3] at h
          cases allow with
          | true =>
            simp only [if_true, List.mem_append, List.mem_singleton] at h
            rcases h with h | h
            · exact Or.inl h
            · exact Or.inr (h.trans c2.symm)
          | false =>
            simp only [Bool.false_eq_true, if_false] at h
            exact Or.inl h
        · rw [if_neg c3] at h
          exact Or.inl (List.mem_of_mem_dropLast h)
    · rw [if_neg c2] at h
      simpa using h

theorem mem_foldl_normStep (allow : Bool) (segs res : List String) (x : String)
    (h : x ∈ segs.foldl (path.normStep allow) res) : x ∈ res ∨ x ∈ segs := by
  induction segs generalizing res with
  | nil => exact Or.inl h
  | cons seg rest ih =>
    simp only [List.foldl_cons] at h
    rcases ih _ h with h | h
    · rcases mem_normStep allow res seg x h with h | h
      · exact Or.inl h
      · exact Or.inr (by simp [h])
    · exact Or.inr (List.mem_cons_of_mem _ h)

theorem kept_normStep (allow : Bool) (res : List String) (seg : String)
    (h : path.Kept allow res) : path.Kept allow (path.normStep allow res seg) := by
  obtain ⟨h1, h2⟩ := h
  unfold path.normStep
  by_cases c1 : seg = "" ∨ seg = "."
  · rw [if_pos c1]
    exact ⟨h1, h2⟩
  · rw [if_neg c1]
    by_cases c2 : seg = ".."
    · rw [if_pos c2]
      cases hl : res.getLast? with
      | none =>
        simp only
        cases allow with
        | true =>
          refine ⟨?_, fun e => by cases e⟩
          intro x hx
          simp only [if_true, List.mem_singleton] at hx
          subst hx
          decide
        | false => exact ⟨by simp, by simp⟩
      | some l =>
        simp only
        by_cases c3 : l = ".."
        · rw [if_pos c3]
          cases allow with
          | true =>
            refine ⟨?_, fun e => by cases e⟩
            intro x hx
            simp only [if_true, List.mem_append, List.mem_singleton] at hx
            rcases hx with hx | hx
            · exact h1 x hx
            · subst hx
              decide
          | false =>
            simp only [Bool.false_eq_true, if_false]
            exact ⟨h1, h2⟩
        · rw [if_neg c3]
          exact ⟨fun x hx => h1 x (List.mem_of_mem_dropLast hx),
            fun e hx => h2 e (List.mem_of_mem_dropLast hx)⟩
    · rw [if_neg c2]
      refine ⟨?_, ?_⟩
      · intro x hx
        rcases List.mem_append.mp hx with hx | hx
        · exact h1 x hx
        · simp only [List.mem_singleton] at hx
          subst hx
          exact ⟨fun e => c1 (Or.inl e), fun e => c1 (Or.inr e)⟩
      · intro e hx
        rcases List.mem_append.mp hx with hx | hx
        · exact h2 e hx
        · simp only [List.mem_singleton] at hx
          exact c2 hx.symm

/-- One more component: where resolution of the kept components leads, followed
by the component, is where resolution of the newly kept components leads. -/
theorem walk_normStep (fs : FS) (allow : Bool) (start : Path)
    (hstart : allow = false → start = [])
    (res : List String) (seg : String) (mid loc : Path)
    (hk : path.Kept allow res) (hseg : seg ≠ "")
    (hres : walk fs start res = Except.ok mid)
    (hstep : walk fs mid [seg] = Except.ok loc) :
    walk fs start (path.normStep allow res seg) = Except.ok loc := by
  obtain ⟨hdir, hlen, hloc⟩ := (walk_one fs mid loc seg).mp hstep
  unfold path.normStep
  by_cases c1 : seg = "."
  · rw [if_pos (Or.inr c1)]
    rw [hloc, c1, stepTo_dot]
    exact hres
  · rw [if_neg (by simp [hseg, c1])]
    by_cases c2 : seg = ".."
    · rw [c2, stepTo_dotdot] at hloc
      rw [c2] at hstep
      subst hloc
      rw [if_pos c2]
      cases hl : res.getLast? with
      | none =>
        have hnil : res = [] := List.getLast?_eq_none_iff.mp hl
        subst hnil
        simp only [walk, Except.ok.injEq] at hres
        subst hres
        simp only
        cases allow with
        | true =>
          simp only [if_true]
          exact hstep
        | false =>
          have := hstart rfl
          subst this
          simp [walk]
      | some l =>
        simp only
        obtain ⟨init, hinit⟩ : ∃ init, res = init ++ [l] := List.getLast?_eq_some_iff.mp hl
        by_cases c3 : l = ".."
        · rw [if_pos c3]
          cases allow with
          | true =>
            simp only [if_true]
            rw [walk_append, hres]
            exact hstep
          | false =>
            exfalso
            exact hk.2 rfl (by rw [hinit, c3]; simp)
        · rw [if_neg c3]
          have hl1 : l ≠ "." := (hk.1 l (by simp [hinit])).2
          rw [hinit, walk_append] at hres
          rw [hinit, List.dropLast_concat]
          cases hw : walk fs start init with
          | error e => simp [hw] at hres
          | ok m0 =>
            simp only [hw] at hres
            obtain ⟨_, _, hmid⟩ := (walk_one fs m0 mid l).mp hres
            rw [stepTo_name m0 l hl1 c3] at hmid
            rw [hmid, List.dropLast_concat]
    · rw [if_neg c2, walk_append, hres]
      exact hstep

/-- Resolution that succeeds on the components of a path succeeds, at the same
location, on its normalized components. -/
theorem walk_foldl_normStep (fs : FS) (allow : Bool) (start : Path)
    (hstart : allow = false → start = [])
    (segs res : List String) (mid loc : Path)
    (hk : path.Kept allow res) (hsegs : "" ∉ segs)
    (hres : walk fs start res = Except.ok mid)
    (hrest : walk fs mid segs = Except.ok loc) :
    walk fs start (segs.foldl (path.normStep allow) res) = Except.ok loc := by
  induction segs generalizing res mid with
  | nil =>
    simp only [walk, Except.ok.injEq] at hrest
    subst hrest
    simpa using hres
  | cons seg rest ih =>
    have hseg : seg ≠ "" := fun e => hsegs (by simp [e])
    have hrest2 : "" ∉ rest := fun e => hsegs (List.mem_cons_of_mem _ e)
    have hsplit := walk_append fs [seg] rest mid
    simp only [List.singleton_append] at hsplit
    rw [hsplit] at hrest
    cases hw : walk fs mid [seg] with
    | error e => simp [hw] at hrest
    | ok mid2 =>
      simp only [hw] at hrest
      simp only [List.foldl_cons]
      exact ih _ mid2 (kept_normStep allow res seg hk)
        hrest2 (walk_normStep fs allow start hstart res seg mid mid2 hk hseg hres hw) hrest

/-- A plain last component stays last under normalization. -/
theorem foldl_normStep_concat (allow : Bool) (segs : List String) (last : String)
    (h0 : last ≠ "") (h1 : last ≠ ".") (h2 : last ≠ "..") :
    (segs ++ [last]).foldl (path.normStep allow) [] =
      segs.foldl (path.normStep allow) [] ++ [last] := by
  rw [List.foldl_append]
  simp [path.normStep, h0, h1, h2]

/-! ## The path of a note and the location it names -/

theorem toList_ne_nil (s : String) (h : s ≠ "") : s.toList ≠ [] := by
  intro e
  apply h
  cases s
  simp only [String.toList] at e
  subst e
  rfl

theorem toList_join3 (a b : String) :
    (a ++ "/" ++ b).toList = a.toList ++ '/' :: b.toList := by
  simp [String.toList]

theorem components_of_no_trailing (p : String) (h : p.toList.getLast? ≠ some '/') :
    components p = segments p := by
  unfold components
  rw [if_neg h, List.append_nil]

/-- The joined string ends with the last character of the last component. -/
theorem joinSlash_getLast (init : List String) (last : String) (h : last ≠ "") :
    (joinSlash (init ++ [last])).toList.getLast? = last.toList.getLast? := by
  have hl := toList_ne_nil last h
  induction init with
  | nil => rfl
  | cons s rest ih =>
    cases hr : rest ++ [last] with
    | nil => simp at hr
    | cons t rest2 =>
      rw [hr] at ih
      have hne : (joinSlash (t :: rest2)).toList ≠ [] := by
        intro e
        rw [e] at ih
        cases hlast : last.toList with
        | nil => exact hl hlast
        | cons c cs =>
          rw [hlast] at ih
          have := List.getLast?_isSome.mpr (List.cons_ne_nil c cs)
          rw [← ih] at this
          simp at this
      simp only [List.cons_append, hr, joinSlash, toList_join3]
      rw [List.getLast?_append_of_ne_nil _ (by simp)]
      cases hx : (joinSlash (t :: rest2)).toList with
      | nil => exact absurd hx hne
      | cons c cs =>
        rw [List.getLast?_cons_cons, ← hx]
        exact ih

/-- Where `path.join(a, b)` leads: for a non-empty `a` and a `b` that ends in a
plain component, the joined and normalized path resolves to the location that
the components of `a` followed by those of `b` resolve to. -/
theorem locate_join (fs : FS) (cwd : Path) (a b : String) (init : List String)
    (last : String) (loc : Path)
    (ha : a ≠ "") (hna : (Char.ofNat 0) ∉ a.toList) (hnb : (Char.ofNat 0) ∉ b.toList)
    (htrail : b.toList.getLast? ≠ some '/')
    (hsegs : segments b = init ++ [last]) (h1 : last ≠ ".") (h2 : last ≠ "..")
    (hwalk : walk fs (if isAbsolute a then [] else cwd) (segments a ++ segments b) =
      Except.ok loc) :
    locate fs cwd (path.join a b) = Except.ok loc := by
  have hb : b ≠ "" := by
    intro e
    rw [e, segments_empty] at hsegs
    simp at hsegs
  have halist := toList_ne_nil a ha
  have hblist := toList_ne_nil b hb
  -- the joined string
  have hjoin : path.join a b = path.normalize (a ++ "/" ++ b) := by
    simp [path.join, ha, hb, joinSlash]
  have hs : a ++ "/" ++ b ≠ "" := by
    intro e
    have := congrArg String.toList e
    rw [toList_join3] at this
    simp [String.toList] at this
  have habs : isAbsolute (a ++ "/" ++ b) = isAbsolute a := by
    simp only [isAbsolute, toList_join3]
    cases h : a.toList with
    | nil => exact absurd h halist
    | cons c cs => rfl
  have htr : decide ((a ++ "/" ++ b).toList.getLast? = some '/') = false := by
    rw [toList_join3]
    have : (a.toList ++ '/' :: b.toList).getLast? = b.toList.getLast? := by
      rw [List.getLast?_append_of_ne_nil _ (by simp)]
      cases h : b.toList with
      | nil => exact absurd h hblist
      | cons c cs => simp [List.getLast?_cons_cons]
    rw [this]
    exact decide_eq_false htrail
  -- its components, normalized
  have hlast0 : last ≠ "" := (mem_segments b last (by rw [hsegs]; simp)).1
  have hsplit : segments (a ++ "/" ++ b) = (segments a ++ init) ++ [last] := by
    rw [segments_append_slash, hsegs, List.append_assoc]
  have hN : (segments (a ++ "/" ++ b)).foldl (path.normStep (!isAbsolute a)) [] =
      (segments a ++ init).foldl (path.normStep (!isAbsolute a)) [] ++ [last] := by
    rw [hsplit]
    exact foldl_normStep_concat _ _ _ hlast0 h1 h2
  have hmem : ∀ x ∈ (segments (a ++ "/" ++ b)).foldl (path.normStep (!isAbsolute a)) [],
      x ≠ "" ∧ '/' ∉ x.toList ∧ ∀ c ∈ x.toList, c ∈ (a ++ "/" ++ b).toList := by
    intro x hx
    rcases mem_foldl_normStep _ _ _ _ hx with h | h
    · simp at h
    · exact mem_segments _ _ h
  have hres : path.normalizeString (a ++ "/" ++ b) (!isAbsolute a) ≠ "" := by
    unfold path.normalizeString
    rw [hN]
    intro e
    cases hN0 : (segments a ++ init).foldl (path.normStep (!isAbsolute a)) [] with
    | nil =>
      rw [hN0] at e
      simp only [List.nil_append, joinSlash] at e
      exact hlast0 e
    | cons x xs =>
      have hx0 : x ≠ "" := (hmem x (by rw [hN, hN0]; simp)).1
      have hh := joinSlash_head x (xs ++ [last]) hx0
      rw [hN0, List.cons_append] at e
      rw [e] at hh
      have := toList_ne_nil x hx0
      cases hxl : x.toList with
      | nil => exact this hxl
      | cons c cs =>
        rw [hxl] at hh
        cases hh
  have hnorm : path.normalize (a ++ "/" ++ b) =
      if isAbsolute a then "/" ++ path.normalizeString (a ++ "/" ++ b) (!isAbsolute a)
      else path.normalizeString (a ++ "/" ++ b) (!isAbsolute a) := by
    unfold path.normalize
    rw [if_neg hs]
    simp only [habs, htr, if_neg hres]
    simp
  -- the walk over the normalized components
  have hstart : (!isAbsolute a) = false → (if isAbsolute a then [] else cwd) = [] := by
    intro e
    simp only [Bool.not_eq_false'] at e
    simp [e]
  have hnoempty : "" ∉ segments a ++ segments b := by
    intro hm
    rcases List.mem_append.mp hm with h | h
    · exact (mem_segments _ _ h).1 rfl
    · exact (mem_segments _ _ h).1 rfl
  have hw : walk fs (if isAbsolute a then [] else cwd)
      ((segments (a ++ "/" ++ b)).foldl (path.normStep (!isAbsolute a)) []) = Except.ok loc := by
    rw [segments_append_slash]
    exact walk_foldl_normStep fs _ _ hstart _ [] _ loc ⟨by simp, by simp⟩ hnoempty
      (by simp [walk]) hwalk
  -- the normalized string, read back
  have hsegN : segments (path.normalizeString (a ++ "/" ++ b) (!isAbsolute a)) =
      (segments (a ++ "/" ++ b)).foldl (path.normStep (!isAbsolute a)) [] := by
    unfold path.normalizeString
    exact segments_joinSlash _ (fun x hx => ⟨(hmem x hx).1, (hmem x hx).2.1⟩)
  have hnulN : (Char.ofNat 0) ∉
      (path.normalizeString (a ++ "/" ++ b) (!isAbsolute a)).toList := by
    unfold path.normalizeString
    intro hm
    rcases joinSlash_toList_mem _ _ hm with e | ⟨x, hx, hc⟩
    · exact absurd e (by decide)
    · have := (hmem x hx).2.2 _ hc
      rw [toList_join3] at this
      rcases List.mem_append.mp this with h | h
      · exact hna h
      · rcases List.mem_cons.mp h with h | h
        · exact absurd h (by decide)
        · exact hnb h
  have hheadN : isAbsolute (path.normalizeString (a ++ "/" ++ b) (!isAbsolute a)) = false := by
    unfold path.normalizeString
    rw [hN]
    cases hN0 : (segments a ++ init).foldl (path.normStep (!isAbsolute a)) [] with
    | nil =>
      simp only [List.nil_append, joinSlash, isAbsolute, decide_eq_false_iff_not]
      have hl := (mem_segments b last (by rw [hsegs]; simp)).2.1
      cases hll : last.toList with
      | nil => simp
      | cons c cs =>
        simp only [List.head?_cons, Option.some.injEq]
        intro e
        exact hl (by rw [hll, e]; simp)
    | cons x xs =>
      have hx := hmem x (by rw [hN, hN0]; simp)
      rw [List.cons_append]
      simp only [isAbsolute, joinSlash_head x (xs ++ [last]) hx.1, decide_eq_false_iff_not]
      cases hxl : x.toList with
      | nil => simp
      | cons c cs =>
        simp only [List.head?_cons, Option.some.injEq]
        intro e
        exact hx.2.1 (by rw [hxl, e]; simp)
  have hlastN : (path.normalizeString (a ++ "/" ++ b) (!isAbsolute a)).toList.getLast? ≠
      some '/' := by
    unfold path.normalizeString
    rw [hN, joinSlash_getLast _ last hlast0]
    intro e
    exact (mem_segments b last (by rw [hsegs]; simp)).2.1 (List.mem_of_mem_getLast? e)
  rw [hjoin, hnorm]
  unfold locate
  cases habs2 : isAbsolute a with
  | true =>
    simp only [if_true]
    have hl : ("/" ++ path.normalizeString (a ++ "/" ++ b) (!true)).toList =
        '/' :: (path.normalizeString (a ++ "/" ++ b) (!true)).toList := by
      simp [String.toList]
    rw [habs2] at hnulN hsegN hw
    have hnul2 : (Char.ofNat 0) ∉ ("/" ++ path.normalizeString (a ++ "/" ++ b) (!true)).toList := by
      rw [hl]
      intro hm
      rcases List.mem_cons.mp hm with h | h
      · exact absurd h (by decide)
      · exact hnulN h
    have hne2 : "/" ++ path.normalizeString (a ++ "/" ++ b) (!true) ≠ "" := by
      intro e
      have := congrArg String.toList e
      rw [hl] at this
      simp [String.toList] at this
    have habs3 : isAbsolute ("/" ++ path.normalizeString (a ++ "/" ++ b) (!true)) = true := by
      simp [isAbsolute, hl]
    have htr2 : ("/" ++ path.normalizeString (a ++ "/" ++ b) (!true)).toList.getLast? ≠
        some '/' := by
      rw [hl]
      rw [habs2] at hlastN hres
      have hne3 := toList_ne_nil _ hres
      cases hx : (path.normalizeString (a ++ "/" ++ b) (!true)).toList with
      | nil => exact absurd hx hne3
      | cons c cs =>
        rw [List.getLast?_cons_cons]
        rw [hx] at hlastN
        exact hlastN
    rw [if_neg hnul2, if_neg hne2, habs3, components_of_no_trailing _ htr2,
      segments_slash_append, hsegN]
    simpa using hw
  | false =>
    rw [habs2] at hnulN hsegN hw hheadN hres hlastN
    simp only [Bool.false_eq_true, if_false]
    rw [if_neg hnulN, if_neg hres, hheadN, components_of_no_trailing _ hlastN, hsegN]
    simpa using hw

/-- What resolving a path string tells about the string. -/
theorem locate_ok (fs : FS) (cwd : Path) (p : String) (loc : Path)
    (h : locate fs cwd p = Except.ok loc) :
    (Char.ofNat 0) ∉ p.toList ∧ p ≠ "" ∧
      walk fs (if isAbsolute p then [] else cwd) (components p) = Except.ok loc := by
  unfold locate at h
  by_cases h1 : (Char.ofNat 0) ∈ p.toList
  · rw [if_pos h1] at h
    cases h
  · rw [if_neg h1] at h
    by_cases h2 : p = ""
    · rw [if_pos h2] at h
      cases h
    · rw [if_neg h2] at h
      exact ⟨h1, h2, h⟩

/-- The final `.` of a path that ends in a separator does not move. -/
theorem walk_segments_of_components (fs : FS) (start : Path) (p : String) (loc : Path)
    (h : walk fs start (components p) = Except.ok loc) :
    walk fs start (segments p) = Except.ok loc := by
  unfold components at h
  split_ifs at h with ht
  · rw [walk_append] at h
    cases hw : walk fs start (segments p) with
    | error e => simp [hw] at h
    | ok mid =>
      simp only [hw] at h
      obtain ⟨_, _, hl⟩ := (walk_one fs mid loc ".").mp h
      rw [hl, stepTo_dot]
  · simpa using h

/-- A listed name is not longer than `NAME_MAX`. -/
theorem names_short (fs : FS) (d : Path) (f : String) (h : f ∈ fs.names d) :
    f.utf8ByteSize ≤ NAME_MAX := by
  simp only [FS.names, List.mem_filterMap] at h
  obtain ⟨e, _, he⟩ := h
  cases hl : e.1.getLast? with
  | none => simp [hl] at he
  | some name =>
    simp only [hl] at he
    split_ifs at he with hc
    simp only [Option.some.injEq] at he
    rw [← he]
    exact hc.2

/-- A file name that ends in `.txt` is a plain component. -/
theorem plain_of_endsWith_txt (f : String) (he : endsWith f ".txt" = true) :
    f ≠ "" ∧ f ≠ "." ∧ f ≠ ".." := by
  refine ⟨?_, ?_, ?_⟩ <;>
  · intro e
    subst e
    revert he
    decide

theorem endsWith_append_txt (n : String) : endsWith (n ++ ".txt") ".txt" = true := by
  simp only [endsWith, List.isSuffixOf_iff_suffix]
  exact ⟨n.toList, by simp [String.toList]⟩

/-- Inside the directory that the cache path names, `path.join(cache, file)`
names the entry `file`, for a file name that ends in `.txt`. -/
theorem locate_join_entry (fs : FS) (cwd : Path) (cache f : String) (dir : Path)
    (hloc : locate fs cwd cache = Except.ok dir) (hdir : fs.node dir = some Node.dir)
    (hs : '/' ∉ f.toList) (hn : (Char.ofNat 0) ∉ f.toList) (he : endsWith f ".txt" = true)
    (hlen : f.utf8ByteSize ≤ NAME_MAX) :
    locate fs cwd (path.join cache f) = Except.ok (dir ++ [f]) := by
  obtain ⟨hnc, hne, hw0⟩ := locate_ok fs cwd cache dir hloc
  have hw := walk_segments_of_components fs _ cache dir hw0
  obtain ⟨p0, p1, p2⟩ := plain_of_endsWith_txt f he
  have hsegs : segments f = [] ++ [f] := segments_of_name f p0 hs
  have htrail : f.toList.getLast? ≠ some '/' := by
    intro e
    exact hs (List.mem_of_mem_getLast? e)
  refine locate_join fs cwd cache f [] f _ hne hnc hn htrail hsegs p1 p2 ?_
  rw [hsegs, List.nil_append, walk_append, hw]
  exact walk_name fs dir f hdir hlen p1 p2

theorem no_slash_append_txt (n : String) (hs : '/' ∉ n.toList) :
    '/' ∉ (n ++ ".txt").toList := by
  have : (n ++ ".txt").toList = n.toList ++ ['.', 't', 'x', 't'] := by simp [String.toList]
  rw [this]
  intro hm
  rcases List.mem_append.mp hm with h | h
  · exact hs h
  · revert h
    decide

theorem no_nul_append_txt (n : String) (hs : (Char.ofNat 0) ∉ n.toList) :
    (Char.ofNat 0) ∉ (n ++ ".txt").toList := by
  have : (n ++ ".txt").toList = n.toList ++ ['.', 't', 'x', 't'] := by simp [String.toList]
  rw [this]
  intro hm
  rcases List.mem_append.mp hm with h | h
  · exact hs h
  · revert h
    decide

/-- Inside the directory that the cache path names, the file path of a note
whose name has no separator names the entry `name.txt`. -/
theorem locate_note (fs : FS) (cwd : Path) (cache n : String) (dir : Path)
    (hloc : locate fs cwd cache = Except.ok dir) (hdir : fs.node dir = some Node.dir)
    (hs : '/' ∉ n.toList) (hn : (Char.ofNat 0) ∉ n.toList)
    (hlen : (n ++ ".txt").utf8ByteSize ≤ NAME_MAX) :
    locate fs cwd (path.join cache (n ++ ".txt")) = Except.ok (dir ++ [n ++ ".txt"]) :=
  locate_join_entry fs cwd cache _ dir hloc hdir (no_slash_append_txt n hs)
    (no_nul_append_txt n hn) (endsWith_append_txt n) hlen

/-- In an existing cache directory the file of a note whose name has no
separator and is not too long can be created when it does not exist. -/
theorem canCreate_note (fs : FS) (cwd : Path) (cache n : String) (dir : Path)
    (hloc : locate fs cwd cache = Except.ok dir) (hdir : fs.node dir = some Node.dir)
    (hs : '/' ∉ n.toList) (hn : (Char.ofNat 0) ∉ n.toList)
    (hlen : (n ++ ".txt").utf8ByteSize ≤ NAME_MAX)
    (h : fileAt fs cwd (path.join cache (n ++ ".txt")) = none) :
    canCreate fs cwd (path.join cache (n ++ ".txt")) = true := by
  have hl := locate_note fs cwd cache n dir hloc hdir hs hn hlen
  unfold fileAt at h
  rw [hl] at h
  simp only at h
  unfold canCreate
  rw [hl]
  simp [FS.vacant, h, List.dropLast_concat, hdir]

/-- The file path of note `../x` leads to the entry `x.txt` of the parent of
the cache directory. -/
theorem locate_parent_note (fs : FS) (cwd : Path) (cache : String) (dir : Path)
    (hloc : locate fs cwd cache = Except.ok dir) (hdir : fs.node dir = some Node.dir)
    (hpar : fs.node dir.dropLast = some Node.dir) :
    locate fs cwd (path.join cache ("../x" ++ ".txt")) =
      Except.ok (dir.dropLast ++ ["x.txt"]) := by
  obtain ⟨hnc, hne, hw0⟩ := locate_ok fs cwd cache dir hloc
  have hw := walk_segments_of_components fs _ cache dir hw0
  have hsegs : segments ("../x" ++ ".txt") = [".."] ++ ["x.txt"] := by decide
  refine locate_join fs cwd cache _ [".."] "x.txt" _ hne hnc (by decide) (by decide) hsegs
    (by decide) (by decide) ?_
  rw [hsegs, walk_append, hw]
  have h1 : ("x.txt" : String) ≠ "." := by decide
  have h2 : ("x.txt" : String) ≠ ".." := by decide
  have hup : walk fs dir [".."] = Except.ok dir.dropLast :=
    (walk_one fs dir _ "..").mpr ⟨hdir, by decide, (stepTo_dotdot dir).symm⟩
  show walk fs dir ([".."] ++ ["x.txt"]) = Except.ok (dir.dropLast ++ ["x.txt"])
  rw [walk_append, hup]
  exact walk_name fs _ "x.txt" hpar (by decide) h1 h2

/-! ## Create, read, update, delete -/

/-- Claim C1, as amended.  When the file of note `n` does not exist: if its
path is shorter than `PATH_MAX` bytes and names a vacant place inside an
existing directory, `POST /write` with `note_name = n` and `note = c` responds
201 "Note created" and a following `GET /notes/n` responds 200 with body
exactly `c`; if the path names no such place, the create responds 500
"Internal Server Error" and the file system is unchanged.  The path does name
such a place whenever the cache path names a directory, `n` contains no
separator and no null character, and `n.txt` is at most `NAME_MAX` bytes long.
(The file-system model bounds the length of a component, not that of a whole
path, which the kernel bounds too: the first part is stated for paths that the
kernel accepts.) -/
theorem create_then_read (fs : FS) (cwd : Path) (cache n c : String)
    (h : fileAt fs cwd (path.join cache (n ++ ".txt")) = none) :
    (canCreate fs cwd (path.join cache (n ++ ".txt")) = true →
      (path.join cache (n ++ ".txt")).utf8ByteSize < PATH_MAX →
      (handle (nodeFs cwd) cache (Request.postWrite n c) fs).sent =
          [⟨201, Body.text "Note created"⟩] ∧
        (handle (nodeFs cwd) cache (Request.getNote n)
          (handle (nodeFs cwd) cache (Request.postWrite n c) fs).fs).sent =
          [⟨200, Body.text c⟩]) ∧
    (canCreate fs cwd (path.join cache (n ++ ".txt")) = false →
      (handle (nodeFs cwd) cache (Request.postWrite n c) fs).sent =
          [⟨500, Body.text "Internal Server Error"⟩] ∧
        (handle (nodeFs cwd) cache (Request.postWrite n c) fs).fs = fs) ∧
    (∀ dir, locate fs cwd cache = Except.ok dir → fs.node dir = some Node.dir →
      '/' ∉ n.toList → (Char.ofNat 0) ∉ n.toList →
      (n ++ ".txt").utf8ByteSize ≤ NAME_MAX →
      canCreate fs cwd (path.join cache (n ++ ".txt")) = true) := by
  obtain ⟨e, he⟩ := posixAccess_of_none cwd _ fs h
  refine ⟨?_, ?_, fun dir hloc hdir hs hn hlen =>
    canCreate_note fs cwd cache n dir hloc hdir hs hn hlen h⟩
  · intro hc _
    obtain ⟨hw1, hw2⟩ := posixWriteFile_of_canCreate cwd (path.join cache (n ++ ".txt")) c fs hc
    have hpost : handle (nodeFs cwd) cache (Request.postWrite n c) fs =
        ⟨Except.ok (), [⟨201, Body.text "Note created"⟩],
          (posixWriteFile cwd (path.join cache (n ++ ".txt")) c fs).2⟩ := by
      rw [handle_postWrite]
      simp only [nodeFs, he]
      rcases hw : posixWriteFile cwd (path.join cache (n ++ ".txt")) c fs with ⟨r, w2⟩
      rw [hw] at hw1
      simp only at hw1
      subst hw1
      rfl
    rw [hpost]
    refine ⟨rfl, ?_⟩
    rw [handle_getNote]
    simp only [nodeFs, posixAccess_of_some cwd _ _ _ hw2, posixReadFile_of_file cwd _ _ _ hw2]
  · intro hc
    obtain ⟨e2, he2⟩ := posixWriteFile_of_not_canCreate cwd _ c fs h hc
    rw [handle_postWrite]
    simp only [nodeFs, he, he2, and_self]

/-- Claim C2.  When the file of note `n` already exists, `POST /write` with
`note_name = n` responds 400 "Note already exists" and leaves the whole file
system, so also the content of that file, unchanged. -/
theorem create_existing_rejected (fs : FS) (cwd : Path) (cache n c : String) (nd : Node)
    (h : fileAt fs cwd (path.join cache (n ++ ".txt")) = some nd) :
    (handle (nodeFs cwd) cache (Request.postWrite n c) fs).sent =
        [⟨400, Body.text "Note already exists"⟩] ∧
      (handle (nodeFs cwd) cache (Request.postWrite n c) fs).fs = fs := by
  rw [handle_postWrite]
  simp only [nodeFs, posixAccess_of_some cwd _ fs nd h, and_self]

/-- Claim C3.  When the file of note `n` does not exist, each of `GET /notes/n`,
`PUT /notes/n` (with any body) and `DELETE /notes/n` responds 404 "Note not
found" and leaves the file system exactly as it was. -/
theorem missing_note_not_found (fs : FS) (cwd : Path) (cache n : String)
    (h : fileAt fs cwd (path.join cache (n ++ ".txt")) = none) :
    ((handle (nodeFs cwd) cache (Request.getNote n) fs).sent =
        [⟨404, Body.text "Note not found"⟩] ∧
      (handle (nodeFs cwd) cache (Request.getNote n) fs).fs = fs) ∧
    (∀ body : String,
      (handle (nodeFs cwd) cache (Request.putNote n body) fs).sent =
        [⟨404, Body.text "Note not found"⟩] ∧
      (handle (nodeFs cwd) cache (Request.putNote n body) fs).fs = fs) ∧
    ((handle (nodeFs cwd) cache (Request.deleteNote n) fs).sent =
        [⟨404, Body.text "Note not found"⟩] ∧
      (handle (nodeFs cwd) cache (Request.deleteNote n) fs).fs = fs) := by
  obtain ⟨e, he⟩ := posixAccess_of_none cwd _ fs h
  refine ⟨?_, ?_, ?_⟩
  · rw [handle_getNote]
    simp only [nodeFs, he, and_self]
  · intro body
    rw [handle_putNote]
    simp only [nodeFs, he, and_self]
  · rw [handle_deleteNote]
    simp only [nodeFs, he, and_self]

/-- Claim C4.  When the file of note `n` exists with any old content,
`PUT /notes/n` with body `b` responds 200 "Note updated" and a following
`GET /notes/n` responds 200 with body exactly `b`. -/
theorem update_replaces_content (fs : FS) (cwd : Path) (cache n b old : String)
    (h : fileAt fs cwd (path.join cache (n ++ ".txt")) = some (Node.file old)) :
    (handle (nodeFs cwd) cache (Request.putNote n b) fs).sent =
        [⟨200, Body.text "Note updated"⟩] ∧
      (handle (nodeFs cwd) cache (Request.getNote n)
        (handle (nodeFs cwd) cache (Request.putNote n b) fs).fs).sent =
        [⟨200, Body.text b⟩] := by
  obtain ⟨hw1, hw2⟩ := posixWriteFile_of_file cwd (path.join cache (n ++ ".txt")) b fs old h
  have hput : handle (nodeFs cwd) cache (Request.putNote n b) fs =
      ⟨Except.ok (), [⟨200, Body.text "Note updated"⟩],
        (posixWriteFile cwd (path.join cache (n ++ ".txt")) b fs).2⟩ := by
    rw [handle_putNote]
    simp only [nodeFs, posixAccess_of_some cwd _ fs _ h]
    rcases hw : posixWriteFile cwd (path.join cache (n ++ ".txt")) b fs with ⟨r, w2⟩
    rw [hw] at hw1
    simp only at hw1
    subst hw1
    rfl
  rw [hput]
  refine ⟨rfl, ?_⟩
  rw [handle_getNote]
  simp only [nodeFs, posixAccess_of_some cwd _ _ _ hw2, posixReadFile_of_file cwd _ _ _ hw2]

/-- Claim C5.  When the file of note `n` exists, `DELETE /notes/n` responds 200
"Note deleted" and a following `GET /notes/n` responds 404 "Note not found". -/
theorem delete_removes_note (fs : FS) (cwd : Path) (cache n old : String)
    (h : fileAt fs cwd (path.join cache (n ++ ".txt")) = some (Node.file old)) :
    (handle (nodeFs cwd) cache (Request.deleteNote n) fs).sent =
        [⟨200, Body.text "Note deleted"⟩] ∧
      (handle (nodeFs cwd) cache (Request.getNote n)
        (handle (nodeFs cwd) cache (Request.deleteNote n) fs).fs).sent =
        [⟨404, Body.text "Note not found"⟩] := by
  obtain ⟨hu1, hu2⟩ := posixUnlink_of_file cwd (path.join cache (n ++ ".txt")) fs old h
  have hdel : handle (nodeFs cwd) cache (Request.deleteNote n) fs =
      ⟨Except.ok (), [⟨200, Body.text "Note deleted"⟩],
        (posixUnlink cwd (path.join cache (n ++ ".txt")) fs).2⟩ := by
    rw [handle_deleteNote]
    simp only [nodeFs, posixAccess_of_some cwd _ fs _ h]
    rcases hw : posixUnlink cwd (path.join cache (n ++ ".txt")) fs with ⟨r, w2⟩
    rw [hw] at hu1
    simp only at hu1
    subst hu1
    rfl
  rw [hdel]
  refine ⟨rfl, ?_⟩
  obtain ⟨e, he⟩ := posixAccess_of_none cwd _ _ hu2
  rw [handle_getNote]
  simp only [nodeFs, he]

/-! ## Error translation -/

/-- Claim C7, as amended.  For every implementation of the file-system calls
(whatever they do and however they fail), every cache path, every request to
one of the five routes and every world: the handler returns without throwing
and sends exactly one response, whose status is 200, 201, 400, 404 or 500 and
whose body is the fixed text "Internal Server Error" whenever the status is
500.  The response is 404 "Note not found" when the existence check of a read,
update or delete fails, whatever the error of `fs.access`; 400 "Note already
exists" when the existence check of a create succeeds; and 500 "Internal
Server Error" when a call after the check fails: the read, write or unlink,
the directory listing, or (reads leaving the world as it is) the read of any
listed file whose name ends in `.txt`. -/
theorem error_translation_total {ε σ : Type} (fs : FsPromises ε σ) (cache : String)
    (req : Request) (w : σ) :
    (handle fs cache req w).result = Except.ok () ∧
    (∃ r : Response, (handle fs cache req w).sent = [r] ∧
      (r.status = 200 ∨ r.status = 201 ∨ r.status = 400 ∨ r.status = 404 ∨ r.status = 500) ∧
      (r.status = 500 → r.body = Body.text "Internal Server Error")) ∧
    (match req with
      | Request.getNote n =>
        (∀ e w1, fs.access (path.join cache (n ++ ".txt")) w = (Except.error e, w1) →
          (handle fs cache req w).sent = [⟨404, Body.text "Note not found"⟩]) ∧
        (∀ u w1 e w2, fs.access (path.join cache (n ++ ".txt")) w = (Except.ok u, w1) →
          fs.readFile (path.join cache (n ++ ".txt")) w1 = (Except.error e, w2) →
          (handle fs cache req w).sent = [⟨500, Body.text "Internal Server Error"⟩])
      | Request.putNote n b =>
        (∀ e w1, fs.access (path.join cache (n ++ ".txt")) w = (Except.error e, w1) →
          (handle fs cache req w).sent = [⟨404, Body.text "Note not found"⟩]) ∧
        (∀ u w1 e w2, fs.access (path.join cache (n ++ ".txt")) w = (Except.ok u, w1) →
          fs.writeFile (path.join cache (n ++ ".txt")) b w1 = (Except.error e, w2) →
          (handle fs cache req w).sent = [⟨500, Body.text "Internal Server Error"⟩])
      | Request.deleteNote n =>
        (∀ e w1, fs.access (path.join cache (n ++ ".txt")) w = (Except.error e, w1) →
          (handle fs cache req w).sent = [⟨404, Body.text "Note not found"⟩]) ∧
        (∀ u w1 e w2, fs.access (path.join cache (n ++ ".txt")) w = (Except.ok u, w1) →
          fs.unlink (path.join cache (n ++ ".txt")) w1 = (Except.error e, w2) →
          (handle fs cache req w).sent = [⟨500, Body.text "Internal Server Error"⟩])
      | Request.postWrite n c =>
        (∀ u w1, fs.access (path.join cache (n ++ ".txt")) w = (Except.ok u, w1) →
          (handle fs cache req w).sent = [⟨400, Body.text "Note already exists"⟩]) ∧
        (∀ e1 w1 e w2, fs.access (path.join cache (n ++ ".txt")) w = (Except.error e1, w1) →
          fs.writeFile (path.join cache (n ++ ".txt")) c w1 = (Except.error e, w2) →
          (handle fs cache req w).sent = [⟨500, Body.text "Internal Server Error"⟩])
      | Request.listNotes =>
        (∀ e w1, fs.readdir cache w = (Except.error e, w1) →
          (handle fs cache req w).sent = [⟨500, Body.text "Internal Server Error"⟩]) ∧
        ((∀ p w0, (fs.readFile p w0).2 = w0) →
          ∀ files w1, fs.readdir cache w = (Except.ok files, w1) →
          ∀ file ∈ files, endsWith file ".txt" = true →
          ∀ e, (fs.readFile (path.join cache file) w1).1 = Except.error e →
          (handle fs cache req w).sent = [⟨500, Body.text "Internal Server Error"⟩])) := by
  cases req with
  | listNotes =>
    rw [handle_listNotes]
    rcases h : fs.readdir cache w with ⟨r, w1⟩
    cases r with
    | error e => simp [h]
    | ok files =>
      rcases h2 : promiseAll ((files.filter (fun file => endsWith file ".txt")).map
          (readNote fs cache)) ⟨w1, []⟩ with ⟨r2, x⟩
      cases r2 with
      | error e2 => simp [h, h2]
      | ok notes =>
        simp only [h, h2]
        refine ⟨trivial, ⟨_, rfl, by simp, by simp⟩, by simp, ?_⟩
        intro hpure files2 w2 hrd file hfile hends e hfail
        simp only [Prod.mk.injEq, Except.ok.injEq] at hrd
        obtain ⟨hf, hw⟩ := hrd
        subst hf
        subst hw
        obtain ⟨e3, he3⟩ := promiseAll_readNote_error fs cache hpure
          (files.filter (fun file => endsWith file ".txt")) ⟨w1, []⟩ file
          (List.mem_filter.mpr ⟨hfile, hends⟩) e hfail
        rw [h2] at he3
        cases he3
  | getNote n =>
    rw [handle_getNote]
    rcases h : fs.access (path.join cache (n ++ ".txt")) w with ⟨r, w1⟩
    cases r with
    | error e => simp [h]
    | ok u =>
      rcases h2 : fs.readFile (path.join cache (n ++ ".txt")) w1 with ⟨r2, w2⟩
      cases r2 <;> (simp [h, h2]; try (intros; subst_vars; simp [h2]))
  | putNote n b =>
    rw [handle_putNote]
    rcases h : fs.access (path.join cache (n ++ ".txt")) w with ⟨r, w1⟩
    cases r with
    | error e => simp [h]
    | ok u =>
      rcases h2 : fs.writeFile (path.join cache (n ++ ".txt")) b w1 with ⟨r2, w2⟩
      cases r2 <;> (simp [h, h2]; try (intros; subst_vars; simp [h2]))
  | deleteNote n =>
    rw [handle_deleteNote]
    rcases h : fs.access (path.join cache (n ++ ".txt")) w with ⟨r, w1⟩
    cases r with
    | error e => simp [h]
    | ok u =>
      rcases h2 : fs.unlink (path.join cache (n ++ ".txt")) w1 with ⟨r2, w2⟩
      cases r2 <;> (simp [h, h2]; try (intros; subst_vars; simp [h2]))
  | postWrite n c =>
    rw [handle_postWrite]
    rcases h : fs.access (path.join cache (n ++ ".txt")) w with ⟨r, w1⟩
    cases r with
    | ok u => simp [h]
    | error e =>
      rcases h2 : fs.writeFile (path.join cache (n ++ ".txt")) c w1 with ⟨r2, w2⟩
      cases r2 <;> (simp [h, h2]; try (intros; subst_vars; simp [h2]))

/-! ## Frame: what a request leaves alone -/

/-- What a write can do to the file system: nothing, or store a regular file at
the location the path names, which held no directory. -/
theorem posixWriteFile_effect (cwd : Path) (p data : String) (fs : FS) :
    (posixWriteFile cwd p data fs).2 = fs ∨
      ∃ loc, locate fs cwd p = Except.ok loc ∧ fs.node loc ≠ some Node.dir ∧
        (posixWriteFile cwd p data fs).2 = fs.put loc (Node.file data) := by
  unfold posixWriteFile
  cases hl : locate fs cwd p with
  | error e => exact Or.inl rfl
  | ok loc =>
    rcases hn : fs.node loc with _ | (c | _)
    · by_cases hp : fs.node loc.dropLast = some Node.dir
      · exact Or.inr ⟨loc, rfl, by simp [hn], by simp [hn, hp]⟩
      · exact Or.inl (by simp [hn, hp])
    · exact Or.inr ⟨loc, rfl, by simp [hn], by simp [hn]⟩
    · exact Or.inl (by simp [hn])

/-- What an unlink can do to the file system: nothing, or remove the regular
file at the location the path names. -/
theorem posixUnlink_effect (cwd : Path) (p : String) (fs : FS) :
    (posixUnlink cwd p fs).2 = fs ∨
      ∃ loc, locate fs cwd p = Except.ok loc ∧ fs.node loc ≠ some Node.dir ∧
        (posixUnlink cwd p fs).2 = fs.remove loc := by
  unfold posixUnlink
  cases hl : locate fs cwd p with
  | error e => exact Or.inl rfl
  | ok loc =>
    rcases hn : fs.node loc with _ | (c | _)
    · exact Or.inl (by simp [hn])
    · exact Or.inr ⟨loc, rfl, by simp [hn], by simp [hn]⟩
    · exact Or.inl (by simp [hn])

/-- Two file systems that differ only at one location, which holds a directory
in neither, agree on what every path names that does not resolve there. -/
theorem fileAt_of_eq_off (fs fs2 : FS) (cwd : Path) (L : Path)
    (off : ∀ q, q ≠ L → fs2.node q = fs.node q)
    (h1 : fs.node L ≠ some Node.dir) (h2 : fs2.node L ≠ some Node.dir)
    (p : String) (hp : locate fs cwd p ≠ Except.ok L) :
    fileAt fs2 cwd p = fileAt fs cwd p := by
  have key : (locate fs2 cwd p).toOption = (locate fs cwd p).toOption := by
    unfold locate
    split_ifs
    · rfl
    · rfl
    · exact walk_toOption_of_eq_off fs fs2 L off h1 h2 _ _
    · exact walk_toOption_of_eq_off fs fs2 L off h1 h2 _ _
  unfold fileAt
  cases hl : locate fs cwd p with
  | error e =>
    cases hl2 : locate fs2 cwd p with
    | error e2 => rfl
    | ok loc2 => simp [hl, hl2, Except.toOption] at key
  | ok loc =>
    cases hl2 : locate fs2 cwd p with
    | error e2 => simp [hl, hl2, Except.toOption] at key
    | ok loc2 =>
      simp only [hl, hl2, Except.toOption, Option.some.injEq] at key
      subst key
      have : loc2 ≠ L := fun e => hp (by rw [hl, e])
      simp only [off loc2 this]

theorem fileAt_put_of_ne (fs : FS) (cwd : Path) (L : Path) (data : String)
    (h1 : fs.node L ≠ some Node.dir) (p : String) (hp : locate fs cwd p ≠ Except.ok L) :
    fileAt (fs.put L (Node.file data)) cwd p = fileAt fs cwd p := by
  have h0 : L ≠ [] := fun e => h1 (by simp [e, FS.node])
  refine fileAt_of_eq_off fs _ cwd L (fun q hq => node_put_of_ne fs L q _ hq) h1 ?_ p hp
  simp [node_put_self fs L _ h0]

theorem fileAt_remove_of_ne (fs : FS) (cwd : Path) (L : Path)
    (h1 : fs.node L ≠ some Node.dir) (p : String) (hp : locate fs cwd p ≠ Except.ok L) :
    fileAt (fs.remove L) cwd p = fileAt fs cwd p := by
  have h0 : L ≠ [] := fun e => h1 (by simp [e, FS.node])
  refine fileAt_of_eq_off fs _ cwd L (fun q hq => node_remove_of_ne fs L q hq) h1 ?_ p hp
  simp [node_remove_self fs L h0]

/-- The reads of `GET /notes` leave the file system as it is. -/
theorem promiseAll_readNote_fs (cwd : Path) (cache : String) (files : List String)
    (x : Exchange FS) :
    (promiseAll (files.map (readNote (nodeFs cwd) cache)) x).2.fs = x.fs := by
  induction files generalizing x with
  | nil => simp [promiseAll, Async.pure]
  | cons f rest ih =>
    simp only [List.map_cons, promiseAll, Async.bind, readNote_run]
    have hs := posixReadFile_snd cwd (path.join cache f) x.fs
    rcases h : posixReadFile cwd (path.join cache f) x.fs with ⟨r, w1⟩
    rw [h] at hs
    simp only at hs
    cases r with
    | error e => simp [nodeFs_access, nodeFs_readFile, nodeFs_writeFile, nodeFs_unlink, nodeFs_readdir, h, hs]
    | ok text =>
      simp only [nodeFs_access, nodeFs_readFile, nodeFs_writeFile, nodeFs_unlink, nodeFs_readdir, h]
      have := ih ⟨w1, x.sent⟩
      rcases h2 : promiseAll (rest.map (readNote (nodeFs cwd) cache)) ⟨w1, x.sent⟩ with ⟨r2, y⟩
      rw [h2] at this
      cases r2 <;> simpa [Async.pure, h2, hs] using this

theorem handle_listNotes_fs (cwd : Path) (cache : String) (fs : FS) :
    (handle (nodeFs cwd) cache Request.listNotes fs).fs = fs := by
  rw [handle_listNotes]
  have hs := posixReaddir_snd cwd cache fs
  rcases h : posixReaddir cwd cache fs with ⟨r, w1⟩
  rw [h] at hs
  simp only at hs
  subst hs
  cases r with
  | error e => simp [nodeFs_access, nodeFs_readFile, nodeFs_writeFile, nodeFs_unlink, nodeFs_readdir, h]
  | ok files =>
    have hf := promiseAll_readNote_fs cwd cache
      (files.filter (fun file => endsWith file ".txt")) ⟨w1, []⟩
    rcases h2 : promiseAll ((files.filter (fun file => endsWith file ".txt")).map
        (readNote (nodeFs cwd) cache)) ⟨w1, []⟩ with ⟨r2, x⟩
    rw [h2] at hf
    simp only at hf
    cases r2 <;> simp [nodeFs_access, nodeFs_readFile, nodeFs_writeFile, nodeFs_unlink, nodeFs_readdir, h, h2, hf]

theorem handle_getNote_fs (cwd : Path) (cache n : String) (fs : FS) :
    (handle (nodeFs cwd) cache (Request.getNote n) fs).fs = fs := by
  rw [handle_getNote]
  have hs := posixAccess_snd cwd (path.join cache (n ++ ".txt")) fs
  rcases h : posixAccess cwd (path.join cache (n ++ ".txt")) fs with ⟨r, w1⟩
  rw [h] at hs
  simp only at hs
  subst hs
  cases r with
  | error e => simp [nodeFs_access, nodeFs_readFile, nodeFs_writeFile, nodeFs_unlink, nodeFs_readdir, h]
  | ok u =>
    have hr := posixReadFile_snd cwd (path.join cache (n ++ ".txt")) w1
    rcases h2 : posixReadFile cwd (path.join cache (n ++ ".txt")) w1 with ⟨r2, w2⟩
    rw [h2] at hr
    simp only at hr
    subst hr
    cases r2 <;> simp [nodeFs_access, nodeFs_readFile, nodeFs_writeFile, nodeFs_unlink, nodeFs_readdir, h, h2]

/-- A create leaves the file system as it was or stores one regular file. -/
theorem handle_postWrite_fs (cwd : Path) (cache n c : String) (fs : FS) :
    (handle (nodeFs cwd) cache (Request.postWrite n c) fs).fs = fs ∨
      (handle (nodeFs cwd) cache (Request.postWrite n c) fs).fs =
        (posixWriteFile cwd (path.join cache (n ++ ".txt")) c fs).2 := by
  rw [handle_postWrite]
  have hs := posixAccess_snd cwd (path.join cache (n ++ ".txt")) fs
  rcases h : posixAccess cwd (path.join cache (n ++ ".txt")) fs with ⟨r, w1⟩
  rw [h] at hs
  simp only at hs
  subst hs
  cases r with
  | ok u => simp [nodeFs_access, nodeFs_readFile, nodeFs_writeFile, nodeFs_unlink, nodeFs_readdir, h]
  | error e =>
    rcases h2 : posixWriteFile cwd (path.join cache (n ++ ".txt")) c w1 with ⟨r2, w2⟩
    cases r2 <;> simp [nodeFs_access, nodeFs_readFile, nodeFs_writeFile, nodeFs_unlink, nodeFs_readdir, h, h2]

theorem handle_putNote_fs (cwd : Path) (cache n b : String) (fs : FS) :
    (handle (nodeFs cwd) cache (Request.putNote n b) fs).fs = fs ∨
      (handle (nodeFs cwd) cache (Request.putNote n b) fs).fs =
        (posixWriteFile cwd (path.join cache (n ++ ".txt")) b fs).2 := by
  rw [handle_putNote]
  have hs := posixAccess_snd cwd (path.join cache (n ++ ".txt")) fs
  rcases h : posixAccess cwd (path.join cache (n ++ ".txt")) fs with ⟨r, w1⟩
  rw [h] at hs
  simp only at hs
  subst hs
  cases r with
  | error e => simp [nodeFs_access, nodeFs_readFile, nodeFs_writeFile, nodeFs_unlink, nodeFs_readdir, h]
  | ok u =>
    rcases h2 : posixWriteFile cwd (path.join cache (n ++ ".txt")) b w1 with ⟨r2, w2⟩
    cases r2 <;> simp [nodeFs_access, nodeFs_readFile, nodeFs_writeFile, nodeFs_unlink, nodeFs_readdir, h, h2]

theorem handle_deleteNote_fs (cwd : Path) (cache n : String) (fs : FS) :
    (handle (nodeFs cwd) cache (Request.deleteNote n) fs).fs = fs ∨
      (handle (nodeFs cwd) cache (Request.deleteNote n) fs).fs =
        (posixUnlink cwd (path.join cache (n ++ ".txt")) fs).2 := by
  rw [handle_deleteNote]
  have hs := posixAccess_snd cwd (path.join cache (n ++ ".txt")) fs
  rcases h : posixAccess cwd (path.join cache (n ++ ".txt")) fs with ⟨r, w1⟩
  rw [h] at hs
  simp only at hs
  subst hs
  cases r with
  | error e => simp [nodeFs_access, nodeFs_readFile, nodeFs_writeFile, nodeFs_unlink, nodeFs_readdir, h]
  | ok u =>
    rcases h2 : posixUnlink cwd (path.join cache (n ++ ".txt")) w1 with ⟨r2, w2⟩
    cases r2 <;> simp [nodeFs_access, nodeFs_readFile, nodeFs_writeFile, nodeFs_unlink, nodeFs_readdir, h, h2]

theorem fileAt_posixWriteFile_of_ne (cwd : Path) (p q data : String) (fs : FS)
    (h : ∀ loc, locate fs cwd p = Except.ok loc → locate fs cwd q ≠ Except.ok loc) :
    fileAt (posixWriteFile cwd p data fs).2 cwd q = fileAt fs cwd q := by
  rcases posixWriteFile_effect cwd p data fs with e | ⟨loc, hl, hn, e⟩
  · rw [e]
  · rw [e]
    exact fileAt_put_of_ne fs cwd loc data hn q (h loc hl)

theorem fileAt_posixUnlink_of_ne (cwd : Path) (p q : String) (fs : FS)
    (h : ∀ loc, locate fs cwd p = Except.ok loc → locate fs cwd q ≠ Except.ok loc) :
    fileAt (posixUnlink cwd p fs).2 cwd q = fileAt fs cwd q := by
  rcases posixUnlink_effect cwd p fs with e | ⟨loc, hl, hn, e⟩
  · rw [e]
  · rw [e]
    exact fileAt_remove_of_ne fs cwd loc hn q (h loc hl)

/-- Claim C10, as amended.  For every file system and every pair of names `n`
and `m` whose file paths do not resolve to the same location, a create, update
or delete request on `n`, whatever its outcome, leaves what the file path of
`m` names unchanged: whether the file exists, and its content.  `GET /notes`
and `GET /notes/:noteName` never change the file system at all. -/
theorem requests_touch_own_file (fs : FS) (cwd : Path) (cache n m : String) :
    ((∀ loc, locate fs cwd (path.join cache (n ++ ".txt")) = Except.ok loc →
        locate fs cwd (path.join cache (m ++ ".txt")) ≠ Except.ok loc) →
      (∀ c, fileAt (handle (nodeFs cwd) cache (Request.postWrite n c) fs).fs cwd
          (path.join cache (m ++ ".txt")) = fileAt fs cwd (path.join cache (m ++ ".txt"))) ∧
      (∀ b, fileAt (handle (nodeFs cwd) cache (Request.putNote n b) fs).fs cwd
          (path.join cache (m ++ ".txt")) = fileAt fs cwd (path.join cache (m ++ ".txt"))) ∧
      fileAt (handle (nodeFs cwd) cache (Request.deleteNote n) fs).fs cwd
          (path.join cache (m ++ ".txt")) = fileAt fs cwd (path.join cache (m ++ ".txt"))) ∧
    (handle (nodeFs cwd) cache Request.listNotes fs).fs = fs ∧
    (handle (nodeFs cwd) cache (Request.getNote n) fs).fs = fs := by
  refine ⟨fun h => ⟨?_, ?_, ?_⟩, handle_listNotes_fs cwd cache fs, handle_getNote_fs cwd cache n fs⟩
  · intro c
    rcases handle_postWrite_fs cwd cache n c fs with e | e
    · rw [e]
    · rw [e]
      exact fileAt_posixWriteFile_of_ne cwd _ _ c fs h
  · intro b
    rcases handle_putNote_fs cwd cache n b fs with e | e
    · rw [e]
    · rw [e]
      exact fileAt_posixWriteFile_of_ne cwd _ _ b fs h
  · rcases handle_deleteNote_fs cwd cache n fs with e | e
    · rw [e]
    · rw [e]
      exact fileAt_posixUnlink_of_ne cwd _ _ fs h

/-! ## Listing -/

theorem lastComponent_of_no_slash (f : String) (h : '/' ∉ f.toList) :
    path.lastComponent f = f := by
  unfold path.lastComponent
  have h1 : ∀ l : List Char, '/' ∉ l → l.dropWhile (fun c => decide (c = '/')) = l := by
    intro l hl
    cases l with
    | nil => rfl
    | cons a t =>
      have : a ≠ '/' := fun e => hl (by simp [e])
      simp [List.dropWhile, this]
  have h2 : ∀ l : List Char, '/' ∉ l → l.takeWhile (fun c => decide (c ≠ '/')) = l := by
    intro l hl
    rw [List.takeWhile_eq_self_iff]
    intro x hx
    have : x ≠ '/' := fun e => hl (e ▸ hx)
    simpa using this
  have hr : '/' ∉ f.toList.reverse := by simpa using h
  rw [h1 _ hr, h2 _ hr, List.reverse_reverse]
  rfl

/-- On a file name that ends in `.txt`, `path.basename(file, ".txt")` is the
name without its last four characters. -/
theorem basename_txt (f : String) (h : '/' ∉ f.toList) (he : endsWith f ".txt" = true) :
    path.basename f ".txt" = dropRight f 4 := by
  have hsuf : ".txt".toList <:+ f.toList := by
    simpa [endsWith, List.isSuffixOf_iff_suffix] using he
  have hlen : ".txt".length ≤ f.length := by
    exact hsuf.length_le
  unfold path.basename
  rw [if_pos ⟨by decide, hlen⟩]
  by_cases hf : ".txt" = f
  · subst hf
    rw [if_pos rfl]
    decide
  · have hf2 : f ≠ ".txt" := fun e => hf e.symm
    rw [if_neg hf]
    dsimp only
    rw [lastComponent_of_no_slash f h, if_pos ⟨he, hf2⟩]
    rfl

/-- When every listed file is a readable regular file, the reads of `GET /notes`
give one note for each, in order. -/
theorem promiseAll_readNote_ok (cwd : Path) (cache : String) (text : String → String)
    (files : List String) (x : Exchange FS)
    (h : ∀ f ∈ files, fileAt x.fs cwd (path.join cache f) = some (Node.file (text f))) :
    promiseAll (files.map (readNote (nodeFs cwd) cache)) x =
      (Except.ok (files.map (fun f => Note.mk (path.basename f ".txt") (text f))), x) := by
  induction files with
  | nil => rfl
  | cons f rest ih =>
    have hf := h f (by simp)
    have hrest := ih (fun g hg => h g (by simp [hg]))
    simp only [List.map_cons, promiseAll, Async.bind, readNote_run, nodeFs_readFile,
      posixReadFile_of_file cwd _ _ _ hf, hrest, Async.pure]

/-- Claim C6.  When the cache path names a directory and every entry of it
whose name ends in `.txt` is a regular file with a file name (no separator, no
null character), `GET /notes` responds 200 with a JSON array that has, in
enumeration order, one element for each entry whose name ends in `.txt` and
none for any other entry; the element's `name` is the entry name without the
trailing `.txt` and its `text` is the content of that file.  The file system
is unchanged, and for an empty directory the array is empty. -/
theorem list_is_txt_entries (fs : FS) (cwd : Path) (cache : String) (dir : Path)
    (hloc : locate fs cwd cache = Except.ok dir) (hdir : fs.node dir = some Node.dir)
    (hentries : ∀ f ∈ fs.names dir, endsWith f ".txt" = true →
      '/' ∉ f.toList ∧ (Char.ofNat 0) ∉ f.toList ∧
        fs.node (dir ++ [f]) = some (Node.file (fs.content (dir ++ [f])))) :
    (handle (nodeFs cwd) cache Request.listNotes fs).sent =
        [⟨200, Body.json (((fs.names dir).filter (fun f => endsWith f ".txt")).map
          (fun f => Note.mk (dropRight f 4) (fs.content (dir ++ [f]))))⟩] ∧
      (handle (nodeFs cwd) cache Request.listNotes fs).fs = fs ∧
      (fs.names dir = [] →
        (handle (nodeFs cwd) cache Request.listNotes fs).sent = [⟨200, Body.json []⟩]) := by
  have hrd : posixReaddir cwd cache fs = (Except.ok (fs.names dir), fs) := by
    simp [posixReaddir, hloc, hdir]
  have hread : ∀ f ∈ (fs.names dir).filter (fun f => endsWith f ".txt"),
      fileAt fs cwd (path.join cache f) = some (Node.file (fs.content (dir ++ [f]))) := by
    intro f hf
    obtain ⟨hm, he⟩ := List.mem_filter.mp hf
    obtain ⟨h1, h2, h3⟩ := hentries f hm he
    unfold fileAt
    rw [locate_join_entry fs cwd cache f dir hloc hdir h1 h2 he (names_short fs dir f hm)]
    exact h3
  have hall := promiseAll_readNote_ok cwd cache (fun f => fs.content (dir ++ [f]))
    ((fs.names dir).filter (fun f => endsWith f ".txt")) ⟨fs, []⟩ hread
  have hmap : ((fs.names dir).filter (fun f => endsWith f ".txt")).map
        (fun f => Note.mk (path.basename f ".txt") (fs.content (dir ++ [f]))) =
      ((fs.names dir).filter (fun f => endsWith f ".txt")).map
        (fun f => Note.mk (dropRight f 4) (fs.content (dir ++ [f]))) := by
    apply List.map_congr_left
    intro f hf
    obtain ⟨hm, he⟩ := List.mem_filter.mp hf
    rw [basename_txt f (hentries f hm he).1 he]
  have hsent : (handle (nodeFs cwd) cache Request.listNotes fs).sent =
      [⟨200, Body.json (((fs.names dir).filter (fun f => endsWith f ".txt")).map
        (fun f => Note.mk (dropRight f 4) (fs.content (dir ++ [f]))))⟩] := by
    rw [handle_listNotes]
    simp only [nodeFs_readdir, hrd, hall, hmap]
  refine ⟨hsent, handle_listNotes_fs cwd cache fs, ?_⟩
  intro hempty
  rw [hsent, hempty]
  rfl

/-! ## Creating the cache directory -/

theorem assoc_mem (l : List (Path × Node)) (q : Path) (x : Node) (h : assoc l q = some x) :
    (q, x) ∈ l := by
  induction l with
  | nil => simp [assoc] at h
  | cons e l ih =>
    obtain ⟨k, v⟩ := e
    by_cases hk : k = q
    · simp only [assoc, hk, if_true, Option.some.injEq] at h
      simp [hk, h]
    · simp only [assoc, hk, if_false] at h
      exact List.mem_cons_of_mem _ (ih h)

/-- In a closed file system whatever a location holds lies in a directory. -/
theorem closed_parent (fs : FS) (hc : fs.closed = true) (q : Path) (x : Node)
    (h : fs.node q = some x) : fs.node q.dropLast = some Node.dir := by
  by_cases hq : q = []
  · simp [hq, FS.node]
  · simp only [FS.node, hq, if_false] at h
    have hm := assoc_mem _ _ _ h
    have := List.all_eq_true.mp hc _ hm
    simpa using this

/-- Whatever a location held before `mkdir` it holds afterwards. -/
theorem mkdirWalk_keeps (segs : List String) (fs : FS) (cur q : Path) (x : Node)
    (h : fs.node q = some x) : (mkdirWalk fs cur segs).2.node q = some x := by
  induction segs generalizing fs cur with
  | nil =>
    unfold mkdirWalk
    split <;> exact h
  | cons seg rest ih =>
    unfold mkdirWalk
    split
    · exact h
    · exact h
    · split_ifs with h1 h2
      · exact h
      · exact ih fs _ h
      · split
        · rename_i hnone
          refine ih _ _ ?_
          have : q ≠ stepTo cur seg := fun e => by rw [e, hnone] at h; cases h
          rw [node_put_of_ne fs _ q _ this, h]
        · exact ih fs _ h

/-- After a `mkdir` that succeeds the path resolves to a directory, and every
location it passes through holds a directory. -/
theorem mkdirWalk_ok (segs : List String) (fs : FS) (cur : Path)
    (h : (mkdirWalk fs cur segs).1 = Except.ok ()) :
    (∃ loc, walk (mkdirWalk fs cur segs).2 cur segs = Except.ok loc ∧
      (mkdirWalk fs cur segs).2.node loc = some Node.dir) ∧
    ∀ q ∈ trail cur segs, (mkdirWalk fs cur segs).2.node q = some Node.dir := by
  induction segs generalizing fs cur with
  | nil =>
    unfold mkdirWalk at h ⊢
    rcases hn : fs.node cur with _ | (c | _)
    · simp [hn] at h
    · simp [hn] at h
    · refine ⟨⟨cur, by simp [walk], by simp [hn]⟩, ?_⟩
      intro q hq
      simp only [trail, List.mem_singleton] at hq
      subst hq
      simp [hn]
  | cons seg rest ih =>
    rcases hn : fs.node cur with _ | (c | _)
    · simp [mkdirWalk, hn] at h
    · simp [mkdirWalk, hn] at h
    · have hk : (mkdirWalk fs cur (seg :: rest)).2.node cur = some Node.dir :=
        mkdirWalk_keeps _ fs cur cur _ hn
      by_cases hlen : NAME_MAX < seg.utf8ByteSize
      · simp [mkdirWalk, hn, hlen] at h
      · have key : ∀ fs1 : FS, mkdirWalk fs cur (seg :: rest) = mkdirWalk fs1 (stepTo cur seg) rest →
            (∃ loc, walk (mkdirWalk fs cur (seg :: rest)).2 cur (seg :: rest) = Except.ok loc ∧
              (mkdirWalk fs cur (seg :: rest)).2.node loc = some Node.dir) ∧
            ∀ q ∈ trail cur (seg :: rest),
              (mkdirWalk fs cur (seg :: rest)).2.node q = some Node.dir := by
          intro fs1 e
          have h1 : (mkdirWalk fs1 (stepTo cur seg) rest).1 = Except.ok () := by rw [← e]; exact h
          obtain ⟨⟨loc, hw, hl⟩, ht⟩ := ih fs1 (stepTo cur seg) h1
          refine ⟨⟨loc, ?_, by rw [e]; exact hl⟩, ?_⟩
          · rw [walk, hk]
            simp only [if_neg hlen]
            rw [e]
            exact hw
          · intro q hq
            simp only [trail, List.mem_cons] at hq
            rcases hq with hq | hq
            · rw [hq]
              exact hk
            · rw [e]
              exact ht q hq
        by_cases hd : seg = "." ∨ seg = ".."
        · exact key fs (by rw [mkdirWalk]; simp only [hn, if_neg hlen, if_pos hd])
        · rcases hnx : fs.node (stepTo cur seg) with _ | nd
          · exact key (fs.put (stepTo cur seg) Node.dir)
              (by rw [mkdirWalk]; simp only [hn, if_neg hlen, if_neg hd, hnx])
          · exact key fs (by rw [mkdirWalk]; simp only [hn, if_neg hlen, if_neg hd, hnx])

/-- In a file system where every entry lies in a directory, `mkdir` succeeds
from an existing directory when no component is too long and no location on
the way holds a regular file. -/
theorem mkdirWalk_succeeds (segs : List String) (fs : FS) (cur : Path)
    (hc : ∀ q x, fs.node q = some x → fs.node q.dropLast = some Node.dir)
    (hcur : fs.node cur = some Node.dir)
    (hlen : ∀ seg ∈ segs, seg.utf8ByteSize ≤ NAME_MAX)
    (hfree : ∀ q ∈ trail cur segs, fs.node q = none ∨ fs.node q = some Node.dir) :
    (mkdirWalk fs cur segs).1 = Except.ok () := by
  induction segs generalizing fs cur with
  | nil => simp [mkdirWalk, hcur]
  | cons seg rest ih =>
    have hseg : ¬ NAME_MAX < seg.utf8ByteSize := by
      have := hlen seg (by simp)
      omega
    have hrest : ∀ s ∈ rest, s.utf8ByteSize ≤ NAME_MAX :=
      fun s hs => hlen s (List.mem_cons_of_mem _ hs)
    have hfree2 : ∀ q ∈ trail (stepTo cur seg) rest,
        fs.node q = none ∨ fs.node q = some Node.dir :=
      fun q hq => hfree q (by simp only [trail, List.mem_cons]; exact Or.inr hq)
    have hhead : stepTo cur seg ∈ trail (stepTo cur seg) rest := by
      cases rest <;> simp [trail]
    unfold mkdirWalk
    simp only [hcur, if_neg hseg]
    by_cases hd : seg = "." ∨ seg = ".."
    · rw [if_pos hd]
      refine ih fs _ hc ?_ hrest hfree2
      rcases hd with hd | hd
      · rw [hd, stepTo_dot]
        exact hcur
      · rw [hd, stepTo_dotdot]
        exact hc cur _ hcur
    · rw [if_neg hd]
      have hnot : seg ≠ "." ∧ seg ≠ ".." := by
        constructor
        · exact fun e => hd (Or.inl e)
        · exact fun e => hd (Or.inr e)
      have hstep : stepTo cur seg = cur ++ [seg] := stepTo_name cur seg hnot.1 hnot.2
      rcases hnx : fs.node (stepTo cur seg) with _ | (c | _)
      · simp only
        have hne : stepTo cur seg ≠ [] := by rw [hstep]; simp
        have hcn : cur ≠ stepTo cur seg := by
          intro e
          rw [← e, hcur] at hnx
          cases hnx
        refine ih _ _ ?_ (node_put_self fs _ _ hne) hrest ?_
        · intro q x hq
          by_cases hqn : q = stepTo cur seg
          · rw [hqn, hstep, List.dropLast_concat, node_put_of_ne fs _ cur _ (by rw [← hstep]; exact hcn)]
            exact hcur
          · rw [node_put_of_ne fs _ q _ hqn] at hq
            have hp := hc q x hq
            have hpn : q.dropLast ≠ stepTo cur seg := by
              intro e
              rw [e, hnx] at hp
              cases hp
            rw [node_put_of_ne fs _ _ _ hpn]
            exact hp
        · intro q hq
          by_cases hqn : q = stepTo cur seg
          · rw [hqn, node_put_self fs _ _ hne]
            exact Or.inr rfl
          · rw [node_put_of_ne fs _ q _ hqn]
            exact hfree2 q hq
      · rcases hfree2 _ hhead with e | e <;> rw [hnx] at e <;> cases e
      · simp only
        exact ih fs _ hc hnx hrest hfree2

/-! ## Ensuring the cache directory -/

theorem ensureCacheDirectory_run (cwd : Path) (cache : String) (fs : FS) :
    ensureCacheDirectory (nodeFs cwd) cache ⟨fs, []⟩ =
      match posixAccess cwd cache fs with
      | (Except.ok _, _) => (Except.ok (), ⟨fs, []⟩)
      | (Except.error _, _) => ((posixMkdir cwd cache fs).1, ⟨(posixMkdir cwd cache fs).2, []⟩) := by
  have hs := posixAccess_snd cwd cache fs
  simp only [ensureCacheDirectory, tryCatch, await, nodeFs_access, nodeFs_mkdir]
  rcases h : posixAccess cwd cache fs with ⟨r, w1⟩
  rw [h] at hs
  simp only at hs
  subst hs
  cases r <;> rfl

/-- A `mkdir` that succeeds was given a valid path and walked it to the end. -/
theorem posixMkdir_ok (cwd : Path) (cache : String) (fs : FS)
    (h : (posixMkdir cwd cache fs).1 = Except.ok ()) :
    (Char.ofNat 0) ∉ cache.toList ∧ cache ≠ "" ∧
      posixMkdir cwd cache fs =
        mkdirWalk fs (if isAbsolute cache then [] else cwd) (components cache) := by
  unfold posixMkdir at h ⊢
  by_cases h1 : (Char.ofNat 0) ∈ cache.toList
  · rw [if_pos h1] at h
    cases h
  · rw [if_neg h1] at h ⊢
    by_cases h2 : cache = ""
    · rw [if_pos h2] at h
      cases h
    · rw [if_neg h2]
      exact ⟨h1, h2, rfl⟩

/-- Claim C8, as amended.  `ensureCacheDirectory` checks whether the cache path
is accessible.  If it is, the file system is left unchanged.  If it is not, the
outcome is that of `fs.mkdir(cache, { recursive: true })`: when that succeeds,
the cache path names a directory afterwards, every location on the way to it
holds a directory, and everything that existed is kept; when a location on the
way holds a regular file, it throws.  And `ensureCacheDirectory` does succeed
when every entry of the file system lies in a directory, the directory the
path starts from exists, the path is not empty, has no null character and no
component longer than `NAME_MAX`, and every location on the way holds nothing
or a directory. -/
theorem ensureCacheDirectory_creates (fs : FS) (cwd : Path) (cache : String) :
    (∀ nd, fileAt fs cwd cache = some nd →
      ensureCacheDirectory (nodeFs cwd) cache ⟨fs, []⟩ = (Except.ok (), ⟨fs, []⟩)) ∧
    (fileAt fs cwd cache = none →
      (ensureCacheDirectory (nodeFs cwd) cache ⟨fs, []⟩).1 = Except.ok () →
      fileAt (ensureCacheDirectory (nodeFs cwd) cache ⟨fs, []⟩).2.fs cwd cache = some Node.dir ∧
        (∀ q ∈ trail (if isAbsolute cache then [] else cwd) (components cache),
          (ensureCacheDirectory (nodeFs cwd) cache ⟨fs, []⟩).2.fs.node q = some Node.dir) ∧
        ∀ q x, fs.node q = some x →
          (ensureCacheDirectory (nodeFs cwd) cache ⟨fs, []⟩).2.fs.node q = some x) ∧
    (fileAt fs cwd cache = none →
      (∃ q ∈ trail (if isAbsolute cache then [] else cwd) (components cache),
        ∃ c, fs.node q = some (Node.file c)) →
      ∃ e, (ensureCacheDirectory (nodeFs cwd) cache ⟨fs, []⟩).1 = Except.error e) ∧
    (fs.closed = true → fs.node (if isAbsolute cache then [] else cwd) = some Node.dir →
      cache ≠ "" → (Char.ofNat 0) ∉ cache.toList →
      (∀ seg ∈ components cache, seg.utf8ByteSize ≤ NAME_MAX) →
      (∀ q ∈ trail (if isAbsolute cache then [] else cwd) (components cache),
        fs.node q = none ∨ fs.node q = some Node.dir) →
      (ensureCacheDirectory (nodeFs cwd) cache ⟨fs, []⟩).1 = Except.ok ()) := by
  have hinacc : fileAt fs cwd cache = none →
      ensureCacheDirectory (nodeFs cwd) cache ⟨fs, []⟩ =
        ((posixMkdir cwd cache fs).1, ⟨(posixMkdir cwd cache fs).2, []⟩) := by
    intro h
    obtain ⟨e, he⟩ := posixAccess_of_none cwd cache fs h
    rw [ensureCacheDirectory_run, he]
  have hafter : fileAt fs cwd cache = none →
      (ensureCacheDirectory (nodeFs cwd) cache ⟨fs, []⟩).1 = Except.ok () →
      fileAt (ensureCacheDirectory (nodeFs cwd) cache ⟨fs, []⟩).2.fs cwd cache = some Node.dir ∧
        (∀ q ∈ trail (if isAbsolute cache then [] else cwd) (components cache),
          (ensureCacheDirectory (nodeFs cwd) cache ⟨fs, []⟩).2.fs.node q = some Node.dir) ∧
        ∀ q x, fs.node q = some x →
          (ensureCacheDirectory (nodeFs cwd) cache ⟨fs, []⟩).2.fs.node q = some x := by
    intro h hok
    rw [hinacc h] at hok ⊢
    simp only at hok ⊢
    obtain ⟨h1, h2, hm⟩ := posixMkdir_ok cwd cache fs hok
    rw [hm] at hok ⊢
    obtain ⟨⟨loc, hw, hn⟩, ht⟩ := mkdirWalk_ok _ fs _ hok
    refine ⟨?_, ht, fun q x hq => mkdirWalk_keeps _ fs _ q x hq⟩
    unfold fileAt locate
    rw [if_neg h1, if_neg h2, hw]
    exact hn
  refine ⟨?_, hafter, ?_, ?_⟩
  · intro nd h
    rw [ensureCacheDirectory_run, posixAccess_of_some cwd cache fs nd h]
  · intro h hfile
    obtain ⟨q, hq, c, hc⟩ := hfile
    cases hr : (ensureCacheDirectory (nodeFs cwd) cache ⟨fs, []⟩).1 with
    | error e => exact ⟨e, rfl⟩
    | ok u =>
      exfalso
      obtain ⟨_, ht, hk⟩ := hafter h hr
      have h1 := ht q hq
      rw [hk q _ hc] at h1
      cases h1
  · intro hc hstart hne hnul hlen hfree
    cases hf : fileAt fs cwd cache with
    | some nd =>
      rw [ensureCacheDirectory_run, posixAccess_of_some cwd cache fs nd hf]
    | none =>
      rw [hinacc hf]
      simp only
      unfold posixMkdir
      rw [if_neg hnul, if_neg hne]
      exact mkdirWalk_succeeds _ fs _ (closed_parent fs hc) hstart hlen hfree

/-- Claim C8: inputs at which the claim as stated fails.  Where a component of
the cache path is a regular file, `ensureCacheDirectory` finds the path
inaccessible and creates nothing: it throws `ENOTDIR`.  And `main.js` declares
`const swaggerDocs` twice at its top level (lines 26 and 30), which is an
early error: the module does not load, so that on startup no statement of it
runs, the call of `ensureCacheDirectory` included. -/
theorem cache_directory_not_ensured :
    fileAt demoFs demoCwd "cache/a.txt/store" = none ∧
    ensureCacheDirectory (nodeFs demoCwd) "cache/a.txt/store" ⟨demoFs, []⟩ =
      (Except.error Errno.ENOTDIR, ⟨demoFs, []⟩) ∧
    loadModule mainJs = Except.error (LoadError.alreadyDeclared "swaggerDocs") :=
  ⟨by decide, rfl, rfl⟩

/-- Claim C8: the amended claim at a sample world.  None of `/srv/app/data`,
`/srv/app/store` and `/srv/app/store/cache` exists; for the cache path
`data/../store/cache`, `ensureCacheDirectory` creates the three of them. -/
theorem ensureCacheDirectory_creates_witness :
    fileAt bareFs demoCwd "data/../store/cache" = none ∧
    (ensureCacheDirectory (nodeFs demoCwd) "data/../store/cache" ⟨bareFs, []⟩).1 =
      Except.ok () ∧
    fileAt (ensureCacheDirectory (nodeFs demoCwd) "data/../store/cache" ⟨bareFs, []⟩).2.fs
      demoCwd "data/../store/cache" = some Node.dir ∧
    (ensureCacheDirectory (nodeFs demoCwd) "data/../store/cache" ⟨bareFs, []⟩).2.fs =
      ⟨[(["srv"], Node.dir), (["srv", "app"], Node.dir), (["srv", "app", "data"], Node.dir),
        (["srv", "app", "store"], Node.dir), (["srv", "app", "store", "cache"], Node.dir)]⟩ :=
  have h : fileAt bareFs demoCwd "data/../store/cache" = none := by decide
  have hok := (ensureCacheDirectory_creates bareFs demoCwd "data/../store/cache").2.2.2
    (by decide) (by decide) (by decide) (by decide) (by decide) (by decide)
  ⟨h, hok, ((ensureCacheDirectory_creates bareFs demoCwd "data/../store/cache").2.1 h hok).1,
    by decide⟩

/-! ## Witnesses and counterexamples of the note operations -/

/-- Claim C1: inputs at which the claim as stated fails.  The file of note
`b/c` does not exist, and `POST /write` responds 500, not 201, because the
directory `b` does not exist in the cache directory; the file of the note
whose name is 300 times the letter `a` does not exist, and `POST /write`
responds 500 because the name is longer than `NAME_MAX`. -/
theorem create_in_missing_directory_fails :
    fileAt demoFs demoCwd (path.join "cache" ("b/c" ++ ".txt")) = none ∧
    (handle (nodeFs demoCwd) "cache" (Request.postWrite "b/c" "hello") demoFs).sent =
      [⟨500, Body.text "Internal Server Error"⟩] ∧
    (handle (nodeFs demoCwd) "cache" (Request.getNote "b/c")
      (handle (nodeFs demoCwd) "cache" (Request.postWrite "b/c" "hello") demoFs).fs).sent =
      [⟨404, Body.text "Note not found"⟩] ∧
    fileAt demoFs demoCwd
      (path.join "cache" (String.mk (List.replicate 300 'a') ++ ".txt")) = none ∧
    (handle (nodeFs demoCwd) "cache"
      (Request.postWrite (String.mk (List.replicate 300 'a')) "hello") demoFs).sent =
      [⟨500, Body.text "Internal Server Error"⟩] := by
  refine ⟨by decide, by decide, by decide, ?_, ?_⟩
  · set_option maxRecDepth 100000 in rfl
  · set_option maxRecDepth 100000 in rfl

/-- Claim C1: the amended claim at the sample world, for note `foo` with
content `hello`. -/
theorem create_then_read_witness :
    fileAt demoFs demoCwd (path.join "cache" ("foo" ++ ".txt")) = none ∧
    canCreate demoFs demoCwd (path.join "cache" ("foo" ++ ".txt")) = true ∧
    (handle (nodeFs demoCwd) "cache" (Request.postWrite "foo" "hello") demoFs).sent =
      [⟨201, Body.text "Note created"⟩] ∧
    (handle (nodeFs demoCwd) "cache" (Request.getNote "foo")
      (handle (nodeFs demoCwd) "cache" (Request.postWrite "foo" "hello") demoFs).fs).sent =
      [⟨200, Body.text "hello"⟩] :=
  have h : fileAt demoFs demoCwd (path.join "cache" ("foo" ++ ".txt")) = none := by decide
  have hc : canCreate demoFs demoCwd (path.join "cache" ("foo" ++ ".txt")) = true :=
    (create_then_read demoFs demoCwd "cache" "foo" "hello" h).2.2 ["srv", "app", "cache"]
      rfl (by decide) (by decide) (by decide) (by decide)
  ⟨h, hc, (create_then_read demoFs demoCwd "cache" "foo" "hello" h).1 hc (by decide)⟩

/-- Claim C2 at the sample world: note `a` exists. -/
theorem create_existing_rejected_witness :
    fileAt demoFs demoCwd (path.join "cache" ("a" ++ ".txt")) = some (Node.file "alpha") ∧
    (handle (nodeFs demoCwd) "cache" (Request.postWrite "a" "beta") demoFs).sent =
      [⟨400, Body.text "Note already exists"⟩] ∧
    (handle (nodeFs demoCwd) "cache" (Request.postWrite "a" "beta") demoFs).fs = demoFs :=
  have h : fileAt demoFs demoCwd (path.join "cache" ("a" ++ ".txt")) =
      some (Node.file "alpha") := by decide
  ⟨h, create_existing_rejected demoFs demoCwd "cache" "a" "beta" _ h⟩

/-- Claim C3 at the sample world: note `foo` does not exist. -/
theorem missing_note_not_found_witness :
    fileAt demoFs demoCwd (path.join "cache" ("foo" ++ ".txt")) = none ∧
    (handle (nodeFs demoCwd) "cache" (Request.getNote "foo") demoFs).sent =
      [⟨404, Body.text "Note not found"⟩] ∧
    (handle (nodeFs demoCwd) "cache" (Request.putNote "foo" "text") demoFs).sent =
      [⟨404, Body.text "Note not found"⟩] ∧
    (handle (nodeFs demoCwd) "cache" (Request.deleteNote "foo") demoFs).sent =
      [⟨404, Body.text "Note not found"⟩] :=
  have h : fileAt demoFs demoCwd (path.join "cache" ("foo" ++ ".txt")) = none := by decide
  ⟨h, (missing_note_not_found demoFs demoCwd "cache" "foo" h).1.1,
    ((missing_note_not_found demoFs demoCwd "cache" "foo" h).2.1 "text").1,
    (missing_note_not_found demoFs demoCwd "cache" "foo" h).2.2.1⟩

/-- Claim C4 at the sample world: note `a` is updated from `alpha` to `beta`. -/
theorem update_replaces_content_witness :
    fileAt demoFs demoCwd (path.join "cache" ("a" ++ ".txt")) = some (Node.file "alpha") ∧
    (handle (nodeFs demoCwd) "cache" (Request.putNote "a" "beta") demoFs).sent =
      [⟨200, Body.text "Note updated"⟩] ∧
    (handle (nodeFs demoCwd) "cache" (Request.getNote "a")
      (handle (nodeFs demoCwd) "cache" (Request.putNote "a" "beta") demoFs).fs).sent =
      [⟨200, Body.text "beta"⟩] :=
  have h : fileAt demoFs demoCwd (path.join "cache" ("a" ++ ".txt")) =
      some (Node.file "alpha") := by decide
  ⟨h, update_replaces_content demoFs demoCwd "cache" "a" "beta" "alpha" h⟩

/-- Claim C5 at the sample world: note `a` is deleted. -/
theorem delete_removes_note_witness :
    fileAt demoFs demoCwd (path.join "cache" ("a" ++ ".txt")) = some (Node.file "alpha") ∧
    (handle (nodeFs demoCwd) "cache" (Request.deleteNote "a") demoFs).sent =
      [⟨200, Body.text "Note deleted"⟩] ∧
    (handle (nodeFs demoCwd) "cache" (Request.getNote "a")
      (handle (nodeFs demoCwd) "cache" (Request.deleteNote "a") demoFs).fs).sent =
      [⟨404, Body.text "Note not found"⟩] :=
  have h : fileAt demoFs demoCwd (path.join "cache" ("a" ++ ".txt")) =
      some (Node.file "alpha") := by decide
  ⟨h, delete_removes_note demoFs demoCwd "cache" "a" "alpha" h⟩

/-- Claim C6 at the sample world: of the three entries of the cache directory
only `a.txt` is listed. -/
theorem list_is_txt_entries_witness :
    demoFs.names ["srv", "app", "cache"] = ["a.txt", "readme.md", "sub"] ∧
    (handle (nodeFs demoCwd) "cache" Request.listNotes demoFs).sent =
      [⟨200, Body.json [⟨"a", "alpha"⟩]⟩] :=
  ⟨by decide,
    (list_is_txt_entries demoFs demoCwd "cache" ["srv", "app", "cache"]
      rfl (by decide) (by decide)).1⟩

/-- Claim C7: an input at which the claim as stated fails.  The process has no
search permission on the cache directory; the file of note `a` exists, the
existence check fails with `EACCES`, which is not the absence of the file, and
`GET /notes/a` responds 404 "Note not found", not 500. -/
theorem permission_denied_answered_not_found :
    fileAt demoFs demoCwd (path.join "cache" ("a" ++ ".txt")) = some (Node.file "alpha") ∧
    (guardedFs demoCwd [["srv", "app", "cache"]]).access
        (path.join "cache" ("a" ++ ".txt")) demoFs = (Except.error Errno.EACCES, demoFs) ∧
    (handle (guardedFs demoCwd [["srv", "app", "cache"]]) "cache" (Request.getNote "a")
      demoFs).sent = [⟨404, Body.text "Note not found"⟩] :=
  ⟨by decide, rfl, by decide⟩

/-- Claim C7, as amended, at a sample world: the cache directory holds a
directory named `d.txt`, so the read that follows the existence check of
`GET /notes/d` fails with `EISDIR`, and so does the read of the listed entry
`d.txt`; both requests are answered 500 with the fixed body. -/
theorem error_translation_total_witness :
    (handle (nodeFs demoCwd) "cache" (Request.getNote "d") oddFs).sent =
      [⟨500, Body.text "Internal Server Error"⟩] ∧
    (handle (nodeFs demoCwd) "cache" Request.listNotes oddFs).sent =
      [⟨500, Body.text "Internal Server Error"⟩] :=
  ⟨(error_translation_total (nodeFs demoCwd) "cache" (Request.getNote "d") oddFs).2.2.2
      () oddFs Errno.EISDIR oddFs rfl rfl,
    (error_translation_total (nodeFs demoCwd) "cache" Request.listNotes oddFs).2.2.2
      (fun p w0 => posixReadFile_snd demoCwd p w0) ["d.txt"] oddFs rfl "d.txt" (by decide)
      (by decide) Errno.EISDIR rfl⟩

/-- Claim C10: an input at which the claim as stated fails.  With the relative
cache path `cache` and working directory `/srv/app`, the names `x` and
`../../app/cache/x` have different file paths, `cache/x.txt` and
`../app/cache/x.txt`, which name the same file: creating the second note
creates the file of the first. -/
theorem different_paths_same_file :
    path.join "cache" ("../../app/cache/x" ++ ".txt") = "../app/cache/x.txt" ∧
    path.join "cache" ("x" ++ ".txt") = "cache/x.txt" ∧
    fileAt demoFs demoCwd (path.join "cache" ("x" ++ ".txt")) = none ∧
    fileAt (handle (nodeFs demoCwd) "cache"
        (Request.postWrite "../../app/cache/x" "hello") demoFs).fs demoCwd
      (path.join "cache" ("x" ++ ".txt")) = some (Node.file "hello") := by
  decide

/-- Claim C10 at the sample world: creating note `foo` leaves the file of note
`a` as it is. -/
theorem requests_touch_own_file_witness :
    fileAt (handle (nodeFs demoCwd) "cache" (Request.postWrite "foo" "hello") demoFs).fs demoCwd
        (path.join "cache" ("a" ++ ".txt")) = some (Node.file "alpha") :=
  have e1 : locate demoFs demoCwd (path.join "cache" ("foo" ++ ".txt")) =
      Except.ok ["srv", "app", "cache", "foo.txt"] := rfl
  have e2 : locate demoFs demoCwd (path.join "cache" ("a" ++ ".txt")) =
      Except.ok ["srv", "app", "cache", "a.txt"] := rfl
  have e3 : fileAt demoFs demoCwd (path.join "cache" ("a" ++ ".txt")) =
      some (Node.file "alpha") := by decide
  (((requests_touch_own_file demoFs demoCwd "cache" "foo" "a").1
    (fun loc h1 h2 => absurd
      ((Except.ok.inj (e1.symm.trans h1)).trans (Except.ok.inj (e2.symm.trans h2)).symm)
      (by decide))).1 "hello").trans e3

/-! ## Escaping the cache directory -/

/-- Claim C9.  The note name `../x`, which contains a path-traversal sequence,
escapes the cache directory: whenever the cache path names a directory other
than the root, inside an existing parent directory that has no entry `x.txt`,
the file path `path.join(cache, "../x" + ".txt")` resolves to the entry `x.txt`
of the parent, which is not inside the cache directory, and `POST /write` with
that name responds 201 "Note created" and writes the file there. -/
theorem note_name_escapes_cache (fs : FS) (cwd : Path) (cache data : String) (dir : Path)
    (hloc : locate fs cwd cache = Except.ok dir) (hdir : fs.node dir = some Node.dir)
    (hroot : dir ≠ []) (hpar : fs.node dir.dropLast = some Node.dir)
    (hvac : fs.node (dir.dropLast ++ ["x.txt"]) = none) :
    locate fs cwd (path.join cache ("../x" ++ ".txt")) =
        Except.ok (dir.dropLast ++ ["x.txt"]) ∧
      ¬ (dir <+: dir.dropLast ++ ["x.txt"]) ∧
      (handle (nodeFs cwd) cache (Request.postWrite "../x" data) fs).sent =
        [⟨201, Body.text "Note created"⟩] ∧
      (handle (nodeFs cwd) cache (Request.postWrite "../x" data) fs).fs.node
        (dir.dropLast ++ ["x.txt"]) = some (Node.file data) := by
  have hl := locate_parent_note fs cwd cache dir hloc hdir hpar
  have hout : ¬ (dir <+: dir.dropLast ++ ["x.txt"]) := by
    intro hp
    have hlen : (dir.dropLast ++ ["x.txt"]).length = dir.length := by
      rw [List.length_append, List.length_dropLast]
      have := List.length_pos.mpr hroot
      simp only [List.length_singleton]
      omega
    have heq : dir = dir.dropLast ++ ["x.txt"] := hp.eq_of_length hlen.symm
    rw [← heq, hdir] at hvac
    cases hvac
  have hnone : fileAt fs cwd (path.join cache ("../x" ++ ".txt")) = none := by
    unfold fileAt
    rw [hl]
    exact hvac
  obtain ⟨e, he⟩ := posixAccess_of_none cwd _ fs hnone
  have hw : posixWriteFile cwd (path.join cache ("../x" ++ ".txt")) data fs =
      (Except.ok (), fs.put (dir.dropLast ++ ["x.txt"]) (Node.file data)) := by
    unfold posixWriteFile
    rw [hl]
    simp only [hvac, List.dropLast_concat, hpar, if_true]
  have hpost : handle (nodeFs cwd) cache (Request.postWrite "../x" data) fs =
      ⟨Except.ok (), [⟨201, Body.text "Note created"⟩],
        fs.put (dir.dropLast ++ ["x.txt"]) (Node.file data)⟩ := by
    rw [handle_postWrite]
    simp only [nodeFs_access, nodeFs_writeFile, he, hw]
  rw [hpost]
  exact ⟨hl, hout, rfl, node_put_self fs _ _ (by simp)⟩

/-- Claim C9 at the sample world: with cache directory `/srv/app/cache` the note
`../x` is written to `/srv/app/x.txt`. -/
theorem note_name_escapes_cache_witness :
    locate demoFs demoCwd (path.join "cache" ("../x" ++ ".txt")) =
        Except.ok ["srv", "app", "x.txt"] ∧
      ¬ (["srv", "app", "cache"] <+: ["srv", "app", "x.txt"]) ∧
      (handle (nodeFs demoCwd) "cache" (Request.postWrite "../x" "data") demoFs).sent =
        [⟨201, Body.text "Note created"⟩] ∧
      (handle (nodeFs demoCwd) "cache" (Request.postWrite "../x" "data") demoFs).fs.node
        ["srv", "app", "x.txt"] = some (Node.file "data") :=
  note_name_escapes_cache demoFs demoCwd "cache" "data" ["srv", "app", "cache"]
    rfl (by decide) (by decide) (by decide) (by decide)

end NotesApi
